import Mathlib

/-!
# Verification of the icepick structural-sharing update engine

A shallow embedding of `icepick` (immutable frozen-collection helpers).
JavaScript values are modelled with explicit reference identity: collections
live in a heap (a list of heap objects addressed by position), and a value is
either a primitive or a reference into that heap.  `Object.freeze` mutates a
`frozen` flag on the addressed object; the module-global `prevNodes` ancestor
list used for cycle detection is part of the threaded state.  Recursions that
are not structural in the source (`baseFreeze`, `assocIn`, `dissocIn`,
`merge`) take an explicit fuel argument; exhausting fuel is reported as a
distinguished outcome, and adequacy lemmas below show when it cannot occur.

The definitions follow `icepick.ts` (which contains every operation of
`icepick.js` plus `dissocIn`, with the extended `isObjectLike` test that also
admits objects with a null prototype and no constructor).
-/

/-- A JavaScript value: a primitive, or a reference to a heap object. -/
inductive JSVal where
  | undefined : JSVal
  | jsnull : JSVal
  | boolV : Bool → JSVal
  | numV : Int → JSVal
  | strV : String → JSVal
  | ref : Nat → JSVal
deriving DecidableEq, Repr

/-- Classification of a heap object's `constructor`. -/
inductive Ctor where
  | object : Ctor   -- `constructor === Object`
  | absent : Ctor   -- no constructor (object created with a null prototype)
  | other : Ctor    -- any other constructor (Array, Date, custom classes, ...)
deriving DecidableEq, Repr

/-- Classification of a heap object's prototype. -/
inductive Proto where
  | objectProto : Proto  -- `Object.getPrototypeOf(val) === Object.prototype`
  | nullProto : Proto    -- null prototype
  | other : Proto        -- anything else
deriving DecidableEq, Repr

/-- A heap object: an array or plain-object-like value with own enumerable
properties in insertion order and an `Object.freeze` flag. -/
structure HeapObj where
  isArr : Bool
  ctor : Ctor
  proto : Proto
  fields : List (String × JSVal)
  frozen : Bool
deriving DecidableEq, Repr

abbrev Heap := List HeapObj

/-- The library's threaded state: the heap plus the module-global `prevNodes`
ancestor list used by `baseFreeze` for cycle detection. -/
structure St where
  heap : Heap
  prev : List JSVal
deriving DecidableEq, Repr

/-- Error outcomes: the reference-cycle error thrown by `baseFreeze`, the
host TypeError (property access on null/undefined), and fuel exhaustion
(marking divergence of the source recursion). -/
inductive Err where
  | cycle : Err
  | typeError : Err
  | fuelOut : Err
deriving DecidableEq, Repr

deriving instance DecidableEq for Except

/-! ## Field lists (own enumerable properties) -/

/-- Look up a key in a field list (first match). -/
def fGet (fs : List (String × JSVal)) (k : String) : Option JSVal :=
  match fs with
  | [] => none
  | (k1, v) :: t => if k1 = k then some v else fGet t k

/-- Assign a key in a field list: update in place, or append a new entry. -/
def fSet (fs : List (String × JSVal)) (k : String) (v : JSVal) :
    List (String × JSVal) :=
  match fs with
  | [] => [(k, v)]
  | (k1, v1) :: t => if k1 = k then (k1, v) :: t else (k1, v1) :: fSet t k v

/-- Delete a key from a field list. -/
def fDel (fs : List (String × JSVal)) (k : String) : List (String × JSVal) :=
  match fs with
  | [] => []
  | (k1, v1) :: t => if k1 = k then t else (k1, v1) :: fDel t k

/-! ## Property access -/

/-- The canonical numeric index denoted by a property key, if any
(JavaScript string indexing only accepts canonical numeric strings). -/
def canonIdx (k : String) : Option Nat :=
  match k.toNat? with
  | some i => if toString i = k then some i else none
  | none => none

/-- `x[k]` for non-nullish `x`: heap objects read their field list;
primitive strings expose `length` and their characters.  (The source never
reads a property of null/undefined except in `dissocIn`, where the resulting
TypeError is modelled explicitly.) -/
def getProp (h : Heap) (v : JSVal) (k : String) : JSVal :=
  match v with
  | .ref a =>
    match h[a]? with
    | some o => (fGet o.fields k).getD .undefined
    | none => .undefined
  | .strV s =>
    if k = "length" then .numV s.length
    else
      match canonIdx k with
      | some i =>
        match (s.data.drop i).head? with
        | some c => .strV (String.mk [c])
        | none => .undefined
      | none => .undefined
  | _ => .undefined

/-- Own enumerable properties, as used by `Object.keys` and `cloneObj`
(primitive strings enumerate their characters). -/
def ownFields (h : Heap) (v : JSVal) : List (String × JSVal) :=
  match v with
  | .ref a => ((h[a]?).map HeapObj.fields).getD []
  | .strV s => s.data.enum.map fun p => (toString p.1, .strV (String.mk [p.2]))
  | _ => []

def ownKeys (h : Heap) (v : JSVal) : List String :=
  (ownFields h v).map Prod.fst

/-- `x.hasOwnProperty(k)` after primitive boxing (total version; the
TypeError on null/undefined is handled at the call site in `dissocIn`). -/
def ownsB (h : Heap) (v : JSVal) (k : String) : Bool :=
  match v with
  | .ref a =>
    match h[a]? with
    | some o => (fGet o.fields k).isSome || (o.isArr && decide (k = "length"))
    | none => false
  | .strV s =>
    decide (k = "length") ||
      (match canonIdx k with
       | some i => decide (i < s.length)
       | none => false)
  | _ => false

/-- JavaScript truthiness (the model's `Int` numbers have no NaN). -/
def truthy : JSVal → Bool
  | .undefined => false
  | .jsnull => false
  | .boolV b => b
  | .numV n => decide (n ≠ 0)
  | .strV s => decide (s ≠ "")
  | .ref _ => true

/-- `x == null` (loose equality): null or undefined. -/
def isNullish : JSVal → Bool
  | .undefined => true
  | .jsnull => true
  | _ => false

/-! ## Classification -/

/-- `Array.isArray(val)`. -/
def isArrayV (h : Heap) (v : JSVal) : Bool :=
  match v with
  | .ref a =>
    match h[a]? with
    | some o => o.isArr
    | none => false
  | _ => false

/-- `isObjectLike` from `icepick.ts`: `typeof val === 'object' &&
(val.constructor === Object || val.constructor == null) &&
(Object.getPrototypeOf(val) === Object.prototype ||
 Object.getPrototypeOf(val) === null)`.  Only heap objects satisfy it; the
null case is unreachable behind `weCareAbout`'s null guard. -/
def isObjectLike (h : Heap) (v : JSVal) : Bool :=
  match v with
  | .ref a =>
    match h[a]? with
    | some o =>
      (decide (o.ctor = Ctor.object) || decide (o.ctor = Ctor.absent)) &&
        (decide (o.proto = Proto.objectProto) || decide (o.proto = Proto.nullProto))
    | none => false
  | _ => false

/-- `weCareAbout`: the collection-of-interest predicate,
`val !== null && (Array.isArray(val) || isObjectLike(val))`. -/
def weCareAbout (h : Heap) (v : JSVal) : Bool :=
  decide (v ≠ JSVal.jsnull) && (isArrayV h v || isObjectLike h v)

/-- `Object.isFrozen` (ES2015: true on primitives). -/
def isFrozenV (h : Heap) (v : JSVal) : Bool :=
  match v with
  | .ref a =>
    match h[a]? with
    | some o => o.frozen
    | none => true
  | _ => true

/-! ## Heap mutation primitives -/

/-- `Object.freeze(x)`: set the frozen flag of the addressed object
(no-op on primitives; shallow). -/
def markFrozen (h : Heap) (v : JSVal) : Heap :=
  match v with
  | .ref a =>
    match h[a]? with
    | some o => h.set a { o with frozen := true }
    | none => h
  | _ => h

/-- Allocate a fresh heap object, returning its reference. -/
def alloc (st : St) (o : HeapObj) : St × JSVal :=
  ({ st with heap := st.heap ++ [o] }, .ref st.heap.length)

/-- Assign a property on the addressed (freshly cloned, unfrozen) object. -/
def setProp (st : St) (v : JSVal) (k : String) (x : JSVal) : St :=
  match v with
  | .ref a =>
    match st.heap[a]? with
    | some o => { st with heap := st.heap.set a { o with fields := fSet o.fields k x } }
    | none => st
  | _ => st

/-- Delete a property on the addressed (freshly cloned, unfrozen) object. -/
def delProp (st : St) (v : JSVal) (k : String) : St :=
  match v with
  | .ref a =>
    match st.heap[a]? with
    | some o => { st with heap := st.heap.set a { o with fields := fDel o.fields k } }
    | none => st
  | _ => st

/-- The `constructor` classification of a value (used by `cloneObj`'s
`obj.constructor == null` test; primitives have wrapper constructors). -/
def ctorOf (h : Heap) (v : JSVal) : Ctor :=
  match v with
  | .ref a =>
    match h[a]? with
    | some o => o.ctor
    | none => Ctor.other
  | _ => Ctor.other

/-- `clone`: arrays are copied with `slice()`; other values go through
`cloneObj`, which copies own enumerable properties into a fresh plain object
(`Object.create(null)` when the source has no constructor). -/
def cloneVal (st : St) (v : JSVal) : St × JSVal :=
  if isArrayV st.heap v then
    alloc st ⟨true, Ctor.other, Proto.other, ownFields st.heap v, false⟩
  else if ctorOf st.heap v = Ctor.absent then
    alloc st ⟨false, Ctor.absent, Proto.nullProto, ownFields st.heap v, false⟩
  else
    alloc st ⟨false, Ctor.object, Proto.objectProto, ownFields st.heap v, false⟩

/-! ## Freeze engine -/

/-- The `forKeys` loop body of `baseFreeze`, parameterized by the
recursive freeze function at the next fuel level: recursively freeze each
child value that is a collection of interest. -/
def freezeKidsGo (bf : St → JSVal → St × Option Err) :
    St → List JSVal → St × Option Err
  | st, [] => (st, none)
  | st, v :: t =>
    if weCareAbout st.heap v then
      match bf st v with
      | (st1, some e) => (st1, some e)
      | (st1, none) => freezeKidsGo bf st1 t
    else freezeKidsGo bf st t

/-- `baseFreeze`: throw the reference-cycle error if `coll` is already on the
module-global ancestor list, else push it, recurse into every own property
that is a collection of interest (key iteration is in reverse order, as in
`forKeys`), pop, and freeze `coll`. -/
def baseFreeze : Nat → St → JSVal → St × Option Err
  | 0, st, _ => (st, some .fuelOut)
  | fuel + 1, st, coll =>
    if coll ∈ st.prev then (st, some .cycle)
    else
      match freezeKidsGo (baseFreeze fuel) { st with prev := st.prev ++ [coll] }
          ((ownFields st.heap coll).reverse.map Prod.snd) with
      | (st2, some e) => (st2, some e)
      | (st2, none) =>
        ({ heap := markFrozen st2.heap coll, prev := st2.prev.dropLast }, none)

/-- The child loop at a given fuel level. -/
def freezeKids (fuel : Nat) : St → List JSVal → St × Option Err :=
  freezeKidsGo (baseFreeze fuel)

/-- Fuel that always suffices for `baseFreeze` (proved below): the ancestor
list grows by one distinct entry per recursion level. -/
def freezeFuel (h : Heap) : Nat := h.length + 2

/-- `freeze`: identity in production mode, else `baseFreeze`. -/
def freeze (prod : Bool) (st : St) (coll : JSVal) : St × Option Err :=
  if prod then (st, none) else baseFreeze (freezeFuel st.heap) st coll

/-- `_freeze`: shallow `Object.freeze` on object-typed values
(identity in production mode). -/
def shallowFreeze (prod : Bool) (st : St) (coll : JSVal) : St :=
  if prod then st else { st with heap := markFrozen st.heap coll }

/-- `freezeIfNeeded`: deep-freeze a collection of interest that is not
already frozen (identity in production mode); returns its argument. -/
def freezeIfNeeded (prod : Bool) (st : St) (v : JSVal) : St × Option Err :=
  if prod then (st, none)
  else if weCareAbout st.heap v && !(isFrozenV st.heap v) then
    baseFreeze (freezeFuel st.heap) st v
  else (st, none)

/-! ## Single-level update -/

/-- `assoc(coll, key, value)`: identity (re-frozen) when the stored value is
already reference-equal, else clone, deep-freeze the value if needed, assign,
shallow-freeze and return the clone. -/
def assoc (prod : Bool) (st : St) (coll : JSVal) (key : String) (value : JSVal) :
    St × Except Err JSVal :=
  if getProp st.heap coll key = value then (shallowFreeze prod st coll, .ok coll)
  else
    let p := cloneVal st coll
    match freezeIfNeeded prod p.1 value with
    | (st2, some e) => (st2, .error e)
    | (st2, none) =>
      let st3 := setProp st2 p.2 key value
      (shallowFreeze prod st3 p.2, .ok p.2)

/-- `dissoc(coll, key)`: clone, delete the key, shallow-freeze the clone. -/
def dissoc (prod : Bool) (st : St) (coll : JSVal) (key : String) :
    St × Except Err JSVal :=
  let p := cloneVal st coll
  let st2 := delProp p.1 p.2 key
  (shallowFreeze prod st2 p.2, .ok p.2)

/-! ## Path-based update -/

/-- `assocIn(coll, path, value)`, fueled: `path[0]` of an empty path is
`undefined`, which coerces to the property key `"undefined"`; the recursive
case synthesizes `coll[key0] || {}` and recurses on `path.slice(1)` (which
leaves an empty path empty — the fuel models the resulting divergence). -/
def assocInF (prod : Bool) (fuel : Nat) (st : St) (coll : JSVal)
    (path : List String) (value : JSVal) : St × Except Err JSVal :=
  match fuel with
  | 0 => (st, .error .fuelOut)
  | fuel + 1 =>
    if path.length = 1 then assoc prod st coll (path.headD "undefined") value
    else
      match assocInF prod fuel
          (if truthy (getProp st.heap coll (path.headD "undefined")) then st
           else { st with heap := st.heap ++
             [⟨false, Ctor.object, Proto.objectProto, [], false⟩] })
          (if truthy (getProp st.heap coll (path.headD "undefined")) then
             getProp st.heap coll (path.headD "undefined")
           else .ref st.heap.length)
          path.tail value with
      | (st2, .error e) => (st2, .error e)
      | (st2, .ok r) => assoc prod st2 coll (path.headD "undefined") r

/-- `assocIn` with its canonical fuel (adequate for every non-empty path). -/
def assocIn (prod : Bool) (st : St) (coll : JSVal) (path : List String)
    (value : JSVal) : St × Except Err JSVal :=
  assocInF prod (path.length + 1) st coll path value

/-- `baseGet` / `getIn`: walk the path, returning `undefined` from the first
non-truthy intermediate. -/
def baseGet (h : Heap) (coll : JSVal) (path : List String) : JSVal :=
  path.foldl (fun curr key => if truthy curr then getProp h curr key else .undefined) coll

/-- `updateIn(coll, path, callback)` (the callback is modelled as a pure
function on values). -/
def updateInF (prod : Bool) (fuel : Nat) (st : St) (coll : JSVal)
    (path : List String) (cb : JSVal → JSVal) : St × Except Err JSVal :=
  assocInF prod fuel st coll path (cb (baseGet st.heap coll path))

/-- `coll.hasOwnProperty` is callable: null/undefined have no properties at
all, and an object created with a null prototype (`Object.create(null)`)
inherits no `hasOwnProperty` method, so the call raises a TypeError; every
other receiver (boxed primitives included) inherits the method. -/
def hasOwnCallable (h : Heap) (v : JSVal) : Bool :=
  match v with
  | .undefined => false
  | .jsnull => false
  | .ref a =>
    match h[a]? with
    | some o => !decide (o.proto = Proto.nullProto)
    | none => true
  | _ => true

/-- `dissocIn(coll, path)`, fueled: `coll.hasOwnProperty(path[0])` throws a
TypeError when `coll` is null/undefined or a null-prototype object (no
inherited `hasOwnProperty`); a missing own key is a no-op; otherwise dissoc
at the last key or recurse. -/
def dissocInF (prod : Bool) (fuel : Nat) (st : St) (coll : JSVal)
    (path : List String) : St × Except Err JSVal :=
  match fuel with
  | 0 => (st, .error .fuelOut)
  | fuel + 1 =>
    if !(hasOwnCallable st.heap coll) then (st, .error .typeError)
    else
      if !(ownsB st.heap coll (path.headD "undefined")) then (st, .ok coll)
      else if path.length = 1 then dissoc prod st coll (path.headD "undefined")
      else
        match dissocInF prod fuel st
            (getProp st.heap coll (path.headD "undefined")) path.tail with
        | (st2, .error e) => (st2, .error e)
        | (st2, .ok r) => assoc prod st2 coll (path.headD "undefined") r

/-- `dissocIn` with its canonical fuel (adequate for every path whose own
recursion terminates; the no-op and error claims below never exhaust it). -/
def dissocIn (prod : Bool) (st : St) (coll : JSVal) (path : List String) :
    St × Except Err JSVal :=
  dissocInF prod (path.length + 1) st coll path

/-! ## Deep merge -/

/-- A caller-supplied merge conflict resolver, modelled as a pure function
`(targetVal, sourceVal, key) ↦ resolvedSourceVal`. -/
abbrev Resolver := JSVal → JSVal → String → JSVal

/-- `assocIfDifferent(target, key, value)`. -/
def assocIfDifferent (prod : Bool) (st : St) (target : JSVal) (key : String)
    (value : JSVal) : St × Except Err JSVal :=
  if getProp st.heap target key = value then (st, .ok target)
  else assoc prod st target key value

/-- `resolvedSourceVal`: the resolver applied to the conflicting pair, or
the source value when no resolver is supplied. -/
def resolveVal (res : Option Resolver) (targetVal sourceVal : JSVal)
    (k : String) : JSVal :=
  match res with
  | some r => r targetVal sourceVal k
  | none => sourceVal

/-- One reducer step of `merge`, parameterized by the recursive merge at the
next fuel level: the frozen/reference-equality skip, array replacement,
recursive mapping merge, or direct `assocIfDifferent`. -/
def mergeStepGo (prod : Bool) (res : Option Resolver)
    (mg : St → JSVal → JSVal → St × Except Err JSVal)
    (st : St) (obj source : JSVal) (k : String) : St × Except Err JSVal :=
  if weCareAbout st.heap (getProp st.heap source k) &&
      weCareAbout st.heap (getProp st.heap obj k) then
    if decide (resolveVal res (getProp st.heap obj k) (getProp st.heap source k) k
          = getProp st.heap obj k) &&
        (prod ||
          (isFrozenV st.heap (resolveVal res (getProp st.heap obj k)
              (getProp st.heap source k) k) &&
            isFrozenV st.heap (getProp st.heap obj k))) then
      (st, .ok obj)
    else if isArrayV st.heap (getProp st.heap source k) then
      assoc prod st obj k
        (resolveVal res (getProp st.heap obj k) (getProp st.heap source k) k)
    else
      match mg st (getProp st.heap obj k)
          (resolveVal res (getProp st.heap obj k) (getProp st.heap source k) k) with
      | (st1, .error e) => (st1, .error e)
      | (st1, .ok m) => assocIfDifferent prod st1 obj k m
  else
    assocIfDifferent prod st obj k
      (resolveVal res (getProp st.heap obj k) (getProp st.heap source k) k)

/-- The key fold of `merge`, parameterized by the reducer step. -/
def mergeListGo (mstep : St → JSVal → JSVal → String → St × Except Err JSVal) :
    St → JSVal → JSVal → List String → St × Except Err JSVal
  | st, obj, _, [] => (st, .ok obj)
  | st, obj, source, k :: kt =>
    match mstep st obj source k with
    | (st1, .error e) => (st1, .error e)
    | (st1, .ok obj1) => mergeListGo mstep st1 obj1 source kt

/-- `merge(target, source, resolver)`: null-guard, then fold the own keys of
`source` into an accumulator seeded at `target`. -/
def merge (prod : Bool) (res : Option Resolver) :
    Nat → St → JSVal → JSVal → St × Except Err JSVal
  | 0, st, _, _ => (st, .error .fuelOut)
  | fuel + 1, st, target, source =>
    if isNullish target || isNullish source then (st, .ok target)
    else
      mergeListGo (mergeStepGo prod res (merge prod res fuel)) st target source
        (ownKeys st.heap source)

/-- The reducer step at a given fuel level. -/
def mergeStep (prod : Bool) (res : Option Resolver) (fuel : Nat) :
    St → JSVal → JSVal → String → St × Except Err JSVal :=
  mergeStepGo prod res (merge prod res fuel)

/-- The key fold at a given fuel level. -/
def mergeList (prod : Bool) (res : Option Resolver) (fuel : Nat) :
    St → JSVal → JSVal → List String → St × Except Err JSVal :=
  mergeListGo (mergeStepGo prod res (merge prod res fuel))

/-! ## Shape preservation: heaps related up to frozen flags -/

/-- Forget the frozen flag of a heap object. -/
def stripF (o : HeapObj) : HeapObj := { o with frozen := false }

/-- Two heaps agree up to frozen flags. -/
def FEq (h h2 : Heap) : Prop := h2.map stripF = h.map stripF

/-- `h2` extends `h`: same objects up to frozen flags, plus allocations. -/
def HExt (h h2 : Heap) : Prop := ∃ t, h2.map stripF = h.map stripF ++ t

lemma FEq_refl (h : Heap) : FEq h h := rfl

lemma FEq_trans {h1 h2 h3 : Heap} (e1 : FEq h1 h2) (e2 : FEq h2 h3) : FEq h1 h3 := by
  unfold FEq at *
  rw [e2, e1]

lemma FEq_hext {h1 h2 : Heap} (e : FEq h1 h2) : HExt h1 h2 :=
  ⟨[], by simpa [FEq] using e⟩

lemma HExt_refl (h : Heap) : HExt h h := ⟨[], by simp⟩

lemma HExt_trans {h1 h2 h3 : Heap} (e1 : HExt h1 h2) (e2 : HExt h2 h3) : HExt h1 h3 := by
  obtain ⟨t1, e1⟩ := e1
  obtain ⟨t2, e2⟩ := e2
  exact ⟨t1 ++ t2, by rw [e2, e1, List.append_assoc]⟩

lemma FEq_length {h h2 : Heap} (e : FEq h h2) : h2.length = h.length := by
  have := congrArg List.length e
  simpa using this

lemma HExt_length_le {h h2 : Heap} (e : HExt h h2) : h.length ≤ h2.length := by
  obtain ⟨t, e⟩ := e
  have := congrArg List.length e
  simp at this
  omega

lemma FEq_get {h h2 : Heap} (e : FEq h h2) (a : Nat) :
    h2[a]?.map stripF = h[a]?.map stripF := by
  rw [← List.getElem?_map, ← List.getElem?_map (f := stripF) (l := h), ← e]

lemma HExt_get {h h2 : Heap} (e : HExt h h2) {a : Nat} (ha : a < h.length) :
    h2[a]?.map stripF = h[a]?.map stripF := by
  obtain ⟨t, e⟩ := e
  rw [← List.getElem?_map, ← List.getElem?_map (f := stripF) (l := h), e,
    List.getElem?_append_left]
  simpa using ha

/-- Unpack shape agreement at one address. -/
lemma heapAgree_some {h h2 : Heap} {a : Nat} {o : HeapObj}
    (e : h2[a]?.map stripF = h[a]?.map stripF) (ho : h[a]? = some o) :
    ∃ o2, h2[a]? = some o2 ∧ o2.fields = o.fields ∧ o2.isArr = o.isArr ∧
      o2.ctor = o.ctor ∧ o2.proto = o.proto := by
  rw [ho] at e
  cases ho2 : h2[a]? with
  | none => rw [ho2] at e; exact absurd e (by simp)
  | some o2 =>
    rw [ho2] at e
    have e2 : stripF o2 = stripF o := by simpa using e
    refine ⟨o2, rfl, ?_, ?_, ?_, ?_⟩
    · simpa [stripF] using congrArg HeapObj.fields e2
    · simpa [stripF] using congrArg HeapObj.isArr e2
    · simpa [stripF] using congrArg HeapObj.ctor e2
    · simpa [stripF] using congrArg HeapObj.proto e2

lemma heapAgree_none {h h2 : Heap} {a : Nat}
    (e : h2[a]?.map stripF = h[a]?.map stripF) (ho : h[a]? = none) :
    h2[a]? = none := by
  rw [ho] at e
  cases ho2 : h2[a]? with
  | none => rfl
  | some o2 => rw [ho2] at e; exact absurd e (by simp)

/-! ## Reference validity and closed heaps -/

/-- A value's reference (if any) points below address `n`. -/
def valIn (n : Nat) : JSVal → Bool
  | .ref a => decide (a < n)
  | _ => true

/-- Every field of every object references into the heap (no dangling
references — guaranteed for heaps describing real JavaScript object graphs). -/
def heapClosed (h : Heap) : Bool :=
  h.all fun o => o.fields.all fun kv => valIn h.length kv.2

lemma valIn_mono {n n2 : Nat} (hle : n ≤ n2) {v : JSVal} (hv : valIn n v = true) :
    valIn n2 v = true := by
  cases v <;> simp_all [valIn] <;> omega

/-! ## Stability of read-only observations under shape agreement -/

lemma getProp_agree {h h2 : Heap} {v : JSVal}
    (e : ∀ a, v = .ref a → h2[a]?.map stripF = h[a]?.map stripF) (k : String) :
    getProp h2 v k = getProp h v k := by
  cases v with
  | ref a =>
    have e2 := e a rfl
    cases ho : h[a]? with
    | none => simp [getProp, heapAgree_none e2 ho, ho]
    | some o =>
      obtain ⟨o2, ho2, hf, _, _, _⟩ := heapAgree_some e2 ho
      simp [getProp, ho2, ho, hf]
  | undefined => rfl
  | jsnull => rfl
  | boolV b => rfl
  | numV n => rfl
  | strV s => rfl

lemma ownFields_agree {h h2 : Heap} {v : JSVal}
    (e : ∀ a, v = .ref a → h2[a]?.map stripF = h[a]?.map stripF) :
    ownFields h2 v = ownFields h v := by
  cases v with
  | ref a =>
    have e2 := e a rfl
    cases ho : h[a]? with
    | none => simp [ownFields, heapAgree_none e2 ho, ho]
    | some o =>
      obtain ⟨o2, ho2, hf, _, _, _⟩ := heapAgree_some e2 ho
      simp [ownFields, ho2, ho, hf]
  | undefined => rfl
  | jsnull => rfl
  | boolV b => rfl
  | numV n => rfl
  | strV s => rfl

lemma ownsB_agree {h h2 : Heap} {v : JSVal}
    (e : ∀ a, v = .ref a → h2[a]?.map stripF = h[a]?.map stripF) (k : String) :
    ownsB h2 v k = ownsB h v k := by
  cases v with
  | ref a =>
    have e2 := e a rfl
    cases ho : h[a]? with
    | none => simp [ownsB, heapAgree_none e2 ho, ho]
    | some o =>
      obtain ⟨o2, ho2, hf, ha, _, _⟩ := heapAgree_some e2 ho
      simp [ownsB, ho2, ho, hf, ha]
  | undefined => rfl
  | jsnull => rfl
  | boolV b => rfl
  | numV n => rfl
  | strV s => rfl

lemma isArrayV_agree {h h2 : Heap} {v : JSVal}
    (e : ∀ a, v = .ref a → h2[a]?.map stripF = h[a]?.map stripF) :
    isArrayV h2 v = isArrayV h v := by
  cases v with
  | ref a =>
    have e2 := e a rfl
    cases ho : h[a]? with
    | none => simp [isArrayV, heapAgree_none e2 ho, ho]
    | some o =>
      obtain ⟨o2, ho2, _, ha, _, _⟩ := heapAgree_some e2 ho
      simp [isArrayV, ho2, ho, ha]
  | undefined => rfl
  | jsnull => rfl
  | boolV b => rfl
  | numV n => rfl
  | strV s => rfl

lemma isObjectLike_agree {h h2 : Heap} {v : JSVal}
    (e : ∀ a, v = .ref a → h2[a]?.map stripF = h[a]?.map stripF) :
    isObjectLike h2 v = isObjectLike h v := by
  cases v with
  | ref a =>
    have e2 := e a rfl
    cases ho : h[a]? with
    | none => simp [isObjectLike, heapAgree_none e2 ho, ho]
    | some o =>
      obtain ⟨o2, ho2, _, _, hc, hp⟩ := heapAgree_some e2 ho
      simp [isObjectLike, ho2, ho, hc, hp]
  | undefined => rfl
  | jsnull => rfl
  | boolV b => rfl
  | numV n => rfl
  | strV s => rfl

lemma weCareAbout_agree {h h2 : Heap} {v : JSVal}
    (e : ∀ a, v = .ref a → h2[a]?.map stripF = h[a]?.map stripF) :
    weCareAbout h2 v = weCareAbout h v := by
  unfold weCareAbout
  rw [isArrayV_agree e, isObjectLike_agree e]

lemma ctorOf_agree {h h2 : Heap} {v : JSVal}
    (e : ∀ a, v = .ref a → h2[a]?.map stripF = h[a]?.map stripF) :
    ctorOf h2 v = ctorOf h v := by
  cases v with
  | ref a =>
    have e2 := e a rfl
    cases ho : h[a]? with
    | none => simp [ctorOf, heapAgree_none e2 ho, ho]
    | some o =>
      obtain ⟨o2, ho2, _, _, hc, _⟩ := heapAgree_some e2 ho
      simp [ctorOf, ho2, ho, hc]
  | undefined => rfl
  | jsnull => rfl
  | boolV b => rfl
  | numV n => rfl
  | strV s => rfl

/-- Agreement supplier from `FEq` (dangling references included). -/
lemma agree_of_FEq {h h2 : Heap} (e : FEq h h2) (v : JSVal) :
    ∀ a, v = .ref a → h2[a]?.map stripF = h[a]?.map stripF :=
  fun a _ => FEq_get e a

/-- Agreement supplier from `HExt` plus a valid reference. -/
lemma agree_of_HExt {h h2 : Heap} (e : HExt h h2) {v : JSVal}
    (hv : valIn h.length v = true) :
    ∀ a, v = .ref a → h2[a]?.map stripF = h[a]?.map stripF := by
  intro a hva
  subst hva
  exact HExt_get e (by simpa [valIn] using hv)

/-! ## Heap mutation lemmas -/

lemma list_map_set {α β : Type _} (f : α → β) (l : List α) :
    ∀ (n : Nat) (a : α), (l.set n a).map f = (l.map f).set n (f a) := by
  induction l with
  | nil => intro n a; rfl
  | cons x t ih =>
    intro n a
    cases n with
    | zero => rfl
    | succ n => simp [List.set, ih]

lemma list_set_same {α : Type _} (l : List α) :
    ∀ (n : Nat) (x : α), l[n]? = some x → l.set n x = l := by
  induction l with
  | nil => intro n x hx; simp at hx
  | cons a t ih =>
    intro n x hx
    cases n with
    | zero => simp at hx; simp [hx]
    | succ n => simp at hx; simp [List.set, ih n x hx]

lemma list_set_append_right {α : Type _} (l1 l2 : List α) (x : α) :
    ∀ (n : Nat), l1.length ≤ n →
      (l1 ++ l2).set n x = l1 ++ l2.set (n - l1.length) x := by
  induction l1 with
  | nil => intro n _; simp
  | cons a t ih =>
    intro n hn
    cases n with
    | zero => simp at hn
    | succ n => simpa [List.set] using ih n (by simpa using hn)

lemma markFrozen_FEq (h : Heap) (v : JSVal) : FEq h (markFrozen h v) := by
  cases v with
  | ref a =>
    cases ho : h[a]? with
    | none => simp [FEq, markFrozen, ho]
    | some o =>
      unfold FEq
      simp only [markFrozen, ho]
      rw [list_map_set]
      apply list_set_same
      rw [List.getElem?_map, ho]
      rfl
  | undefined => rfl
  | jsnull => rfl
  | boolV b => rfl
  | numV n => rfl
  | strV s => rfl

lemma shallowFreeze_FEq (prod : Bool) (st : St) (coll : JSVal) :
    FEq st.heap (shallowFreeze prod st coll).heap := by
  unfold shallowFreeze
  cases prod with
  | true => exact FEq_refl _
  | false => simpa using markFrozen_FEq st.heap coll

lemma shallowFreeze_prev (prod : Bool) (st : St) (coll : JSVal) :
    (shallowFreeze prod st coll).prev = st.prev := by
  unfold shallowFreeze
  cases prod <;> rfl

lemma alloc_HExt (st : St) (o : HeapObj) : HExt st.heap (alloc st o).1.heap :=
  ⟨[stripF o], by simp [alloc]⟩

lemma alloc_prev (st : St) (o : HeapObj) : (alloc st o).1.prev = st.prev := rfl

lemma heap_set_HExt {h : Heap} {h2 : Heap} (e : HExt h h2) {a : Nat}
    (ha : h.length ≤ a) (o : HeapObj) : HExt h (h2.set a o) := by
  obtain ⟨t, et⟩ := e
  refine ⟨t.set (a - h.length) (stripF o), ?_⟩
  rw [list_map_set, et, list_set_append_right _ _ _ _ (by simpa using ha)]
  simp

lemma setProp_HExt {h : Heap} {st : St} (e : HExt h st.heap) {a : Nat}
    (ha : h.length ≤ a) (k : String) (x : JSVal) :
    HExt h (setProp st (.ref a) k x).heap := by
  unfold setProp
  cases ho : st.heap[a]? with
  | none => simpa [ho] using e
  | some o => simpa [ho] using heap_set_HExt e ha _

lemma delProp_HExt {h : Heap} {st : St} (e : HExt h st.heap) {a : Nat}
    (ha : h.length ≤ a) (k : String) :
    HExt h (delProp st (.ref a) k).heap := by
  unfold delProp
  cases ho : st.heap[a]? with
  | none => simpa [ho] using e
  | some o => simpa [ho] using heap_set_HExt e ha _

lemma setProp_prev (st : St) (v : JSVal) (k : String) (x : JSVal) :
    (setProp st v k x).prev = st.prev := by
  unfold setProp
  cases v <;> simp
  case ref a => cases st.heap[a]? <;> rfl

lemma delProp_prev (st : St) (v : JSVal) (k : String) :
    (delProp st v k).prev = st.prev := by
  unfold delProp
  cases v <;> simp
  case ref a => cases st.heap[a]? <;> rfl

/-! ## Unfolding lemmas for the freeze engine -/

lemma baseFreeze_zero (st : St) (coll : JSVal) :
    baseFreeze 0 st coll = (st, some .fuelOut) := rfl

lemma baseFreeze_succ (fuel : Nat) (st : St) (coll : JSVal) :
    baseFreeze (fuel + 1) st coll =
      if coll ∈ st.prev then (st, some .cycle)
      else
        match freezeKids fuel { st with prev := st.prev ++ [coll] }
            ((ownFields st.heap coll).reverse.map Prod.snd) with
        | (st2, some e) => (st2, some e)
        | (st2, none) =>
          ({ heap := markFrozen st2.heap coll, prev := st2.prev.dropLast }, none) := rfl

lemma freezeKids_nil (fuel : Nat) (st : St) : freezeKids fuel st [] = (st, none) := rfl

lemma freezeKids_cons (fuel : Nat) (st : St) (v : JSVal) (t : List JSVal) :
    freezeKids fuel st (v :: t) =
      if weCareAbout st.heap v then
        match baseFreeze fuel st v with
        | (st1, some e) => (st1, some e)
        | (st1, none) => freezeKids fuel st1 t
      else freezeKids fuel st t := rfl

/-! ## The freeze engine only flips frozen flags -/

lemma freezeKids_FEq_of (fuel : Nat)
    (ih : ∀ st coll, FEq st.heap (baseFreeze fuel st coll).1.heap) :
    ∀ (vs : List JSVal) (st : St), FEq st.heap (freezeKids fuel st vs).1.heap := by
  intro vs
  induction vs with
  | nil => intro st; rw [freezeKids_nil]; exact FEq_refl _
  | cons v t iht =>
    intro st
    rw [freezeKids_cons]
    by_cases hc : weCareAbout st.heap v = true
    · simp only [hc, if_true]
      rcases hbf : baseFreeze fuel st v with ⟨st1, e⟩
      have h1 : FEq st.heap st1.heap := by
        have := ih st v
        rw [hbf] at this
        exact this
      cases e with
      | some e => simpa using h1
      | none => exact FEq_trans h1 (iht st1)
    · simp only [hc, if_false, Bool.false_eq_true]
      exact iht st

lemma baseFreeze_FEq : ∀ (fuel : Nat) (st : St) (coll : JSVal),
    FEq st.heap (baseFreeze fuel st coll).1.heap := by
  intro fuel
  induction fuel with
  | zero => intro st coll; rw [baseFreeze_zero]; exact FEq_refl _
  | succ n ih =>
    intro st coll
    rw [baseFreeze_succ]
    by_cases hm : coll ∈ st.prev
    · simp only [hm, if_true]; exact FEq_refl _
    · simp only [hm, if_false]
      rcases hk : freezeKids n { st with prev := st.prev ++ [coll] }
          ((ownFields st.heap coll).reverse.map Prod.snd) with ⟨st2, e⟩
      have h1 : FEq st.heap st2.heap := by
        have := freezeKids_FEq_of n ih
          ((ownFields st.heap coll).reverse.map Prod.snd)
          { st with prev := st.prev ++ [coll] }
        rw [hk] at this
        exact this
      cases e with
      | some e => simpa using h1
      | none => exact FEq_trans h1 (markFrozen_FEq st2.heap coll)

/-! ## Successful freezes restore the ancestor list -/

lemma freezeKids_prev_of (fuel : Nat)
    (ih : ∀ st coll st2, baseFreeze fuel st coll = (st2, none) → st2.prev = st.prev) :
    ∀ (vs : List JSVal) (st st2 : St),
      freezeKids fuel st vs = (st2, none) → st2.prev = st.prev := by
  intro vs
  induction vs with
  | nil => intro st st2 hk; rw [freezeKids_nil] at hk; cases hk; rfl
  | cons v t iht =>
    intro st st2 hk
    rw [freezeKids_cons] at hk
    by_cases hc : weCareAbout st.heap v = true
    · simp only [hc, if_true] at hk
      rcases hbf : baseFreeze fuel st v with ⟨st1, e⟩
      rw [hbf] at hk
      cases e with
      | some e => simp at hk
      | none => exact (iht st1 st2 hk).trans (ih st v st1 hbf)
    · simp only [hc, if_false, Bool.false_eq_true] at hk
      exact iht st st2 hk

lemma baseFreeze_prev_of_ok : ∀ (fuel : Nat) (st : St) (coll : JSVal) (st2 : St),
    baseFreeze fuel st coll = (st2, none) → st2.prev = st.prev := by
  intro fuel
  induction fuel with
  | zero => intro st coll st2 hbf; rw [baseFreeze_zero] at hbf; simp at hbf
  | succ n ih =>
    intro st coll st2 hbf
    rw [baseFreeze_succ] at hbf
    by_cases hm : coll ∈ st.prev
    · simp [hm] at hbf
    · simp only [hm, if_false] at hbf
      rcases hk : freezeKids n { st with prev := st.prev ++ [coll] }
          ((ownFields st.heap coll).reverse.map Prod.snd) with ⟨st3, e⟩
      rw [hk] at hbf
      cases e with
      | some e => simp at hbf
      | none =>
        have h3 : st3.prev = st.prev ++ [coll] :=
          freezeKids_prev_of n ih _ _ _ hk
        cases hbf
        simp [h3]

/-! ## The freeze engine never raises a TypeError -/

lemma freezeKids_no_tE_of (fuel : Nat)
    (ih : ∀ st coll, (baseFreeze fuel st coll).2 ≠ some .typeError) :
    ∀ (vs : List JSVal) (st : St), (freezeKids fuel st vs).2 ≠ some .typeError := by
  intro vs
  induction vs with
  | nil => intro st; rw [freezeKids_nil]; simp
  | cons v t iht =>
    intro st
    rw [freezeKids_cons]
    by_cases hc : weCareAbout st.heap v = true
    · simp only [hc, if_true]
      rcases hbf : baseFreeze fuel st v with ⟨st1, e⟩
      cases e with
      | some e =>
        have := ih st v
        rw [hbf] at this
        simpa using this
      | none => exact iht st1
    · simp only [hc, if_false, Bool.false_eq_true]
      exact iht st

lemma baseFreeze_no_typeError : ∀ (fuel : Nat) (st : St) (coll : JSVal),
    (baseFreeze fuel st coll).2 ≠ some .typeError := by
  intro fuel
  induction fuel with
  | zero => intro st coll; rw [baseFreeze_zero]; simp
  | succ n ih =>
    intro st coll
    rw [baseFreeze_succ]
    by_cases hm : coll ∈ st.prev
    · simp [hm]
    · simp only [hm, if_false]
      rcases hk : freezeKids n { st with prev := st.prev ++ [coll] }
          ((ownFields st.heap coll).reverse.map Prod.snd) with ⟨st2, e⟩
      cases e with
      | some e =>
        have := freezeKids_no_tE_of n ih
          ((ownFields st.heap coll).reverse.map Prod.snd)
          { st with prev := st.prev ++ [coll] }
        rw [hk] at this
        simpa using this
      | none => simp

/-! ## On error, pushed ancestor entries are never popped -/

lemma freezeKids_prev_ext_of (fuel : Nat)
    (ihOk : ∀ st coll st2, baseFreeze fuel st coll = (st2, none) → st2.prev = st.prev)
    (ih : ∀ st coll st2 e, baseFreeze fuel st coll = (st2, some e) →
      ∃ t, st2.prev = st.prev ++ t) :
    ∀ (vs : List JSVal) (st st2 : St) (e : Err),
      freezeKids fuel st vs = (st2, some e) → ∃ t, st2.prev = st.prev ++ t := by
  intro vs
  induction vs with
  | nil => intro st st2 e hk; rw [freezeKids_nil] at hk; simp at hk
  | cons v t iht =>
    intro st st2 e hk
    rw [freezeKids_cons] at hk
    by_cases hc : weCareAbout st.heap v = true
    · simp only [hc, if_true] at hk
      rcases hbf : baseFreeze fuel st v with ⟨st1, e1⟩
      rw [hbf] at hk
      cases e1 with
      | some e1 => cases hk; exact ih st v st2 e hbf
      | none =>
        obtain ⟨t2, ht2⟩ := iht st1 st2 e hk
        exact ⟨t2, by rw [ht2, ihOk st v st1 hbf]⟩
    · simp only [hc, if_false, Bool.false_eq_true] at hk
      exact iht st st2 e hk

lemma baseFreeze_prev_ext : ∀ (fuel : Nat) (st : St) (coll : JSVal) (st2 : St) (e : Err),
    baseFreeze fuel st coll = (st2, some e) → ∃ t, st2.prev = st.prev ++ t := by
  intro fuel
  induction fuel with
  | zero =>
    intro st coll st2 e hbf
    rw [baseFreeze_zero] at hbf
    cases hbf
    exact ⟨[], by simp⟩
  | succ n ih =>
    intro st coll st2 e hbf
    rw [baseFreeze_succ] at hbf
    by_cases hm : coll ∈ st.prev
    · simp only [hm, if_true] at hbf
      cases hbf
      exact ⟨[], by simp⟩
    · simp only [hm, if_false] at hbf
      rcases hk : freezeKids n { st with prev := st.prev ++ [coll] }
          ((ownFields st.heap coll).reverse.map Prod.snd) with ⟨st3, e3⟩
      rw [hk] at hbf
      cases e3 with
      | some e3 =>
        cases hbf
        obtain ⟨t3, ht3⟩ :=
          freezeKids_prev_ext_of n (baseFreeze_prev_of_ok n) ih _ _ _ _ hk
        exact ⟨[coll] ++ t3, by simpa using ht3⟩
      | none => simp at hbf

/-! ## Fuel adequacy for the freeze engine -/

/-- The heap address denoted by a value, if any. -/
def refAddr : JSVal → Option Nat
  | .ref a => some a
  | _ => none

/-- The addresses on the ancestor list. -/
def prevAddrs (p : List JSVal) : List Nat := p.filterMap refAddr

lemma mem_prevAddrs {p : List JSVal} {a : Nat} :
    a ∈ prevAddrs p ↔ JSVal.ref a ∈ p := by
  unfold prevAddrs
  rw [List.mem_filterMap]
  constructor
  · rintro ⟨v, hv, hva⟩
    cases v <;> simp [refAddr] at hva
    subst hva
    exact hv
  · intro hv
    exact ⟨.ref a, hv, rfl⟩

lemma prevAddrs_append (p q : List JSVal) :
    prevAddrs (p ++ q) = prevAddrs p ++ prevAddrs q := by
  unfold prevAddrs
  rw [List.filterMap_append]

lemma prevAddrs_nodup {p : List JSVal} (hp : p.Nodup) : (prevAddrs p).Nodup := by
  unfold prevAddrs
  refine List.Nodup.filterMap ?_ hp
  intro v w a hv hw
  cases v <;> simp [refAddr] at hv
  cases w <;> simp [refAddr] at hw
  rw [hv, hw]

lemma prevAddrs_length_le {p : List JSVal} {n : Nat} (hp : p.Nodup)
    (hlt : ∀ a ∈ prevAddrs p, a < n) : (prevAddrs p).length ≤ n := by
  have hnd := prevAddrs_nodup hp
  have hsub : (prevAddrs p).toFinset ⊆ Finset.range n := by
    intro a ha
    rw [List.mem_toFinset] at ha
    rw [Finset.mem_range]
    exact hlt a ha
  have := Finset.card_le_card hsub
  rw [Finset.card_range, List.toFinset_card_of_nodup hnd] at this
  exact this

/-- When the frozen value is not a valid heap reference, none of its
children is a collection of interest. -/
lemma kids_not_care {h : Heap} {coll : JSVal}
    (hne : ¬ ∃ a, coll = .ref a ∧ a < h.length) :
    ∀ v ∈ (ownFields h coll).reverse.map Prod.snd, weCareAbout h v = false := by
  intro v hv
  rw [List.mem_map] at hv
  obtain ⟨kv, hkv, hkveq⟩ := hv
  rw [List.mem_reverse] at hkv
  cases coll with
  | ref a =>
    cases ho : h[a]? with
    | none => rw [ownFields] at hkv; simp [ho] at hkv
    | some o =>
      refine absurd ⟨a, rfl, ?_⟩ hne
      by_contra hge
      have hnone : h[a]? = none := List.getElem?_eq_none (Nat.le_of_not_lt hge)
      rw [hnone] at ho
      exact Option.noConfusion ho
  | strV s =>
    rw [ownFields] at hkv
    rw [List.mem_map] at hkv
    obtain ⟨p, _, hp⟩ := hkv
    have : v = .strV (String.mk [p.2]) := by rw [← hkveq, ← hp]
    rw [this]
    rfl
  | undefined =>
    rw [show ownFields h JSVal.undefined = [] from rfl] at hkv
    simp at hkv
  | jsnull =>
    rw [show ownFields h JSVal.jsnull = [] from rfl] at hkv
    simp at hkv
  | boolV b =>
    rw [show ownFields h (JSVal.boolV b) = [] from rfl] at hkv
    simp at hkv
  | numV n =>
    rw [show ownFields h (JSVal.numV n) = [] from rfl] at hkv
    simp at hkv

/-- `freezeKids` does nothing when no child is a collection of interest. -/
lemma freezeKids_skip (fuel : Nat) :
    ∀ (vs : List JSVal) (st : St), (∀ v ∈ vs, weCareAbout st.heap v = false) →
      freezeKids fuel st vs = (st, none) := by
  intro vs
  induction vs with
  | nil => intro st _; rw [freezeKids_nil]
  | cons v t iht =>
    intro st hall
    rw [freezeKids_cons]
    have hv := hall v (by simp)
    simp only [hv, if_false, Bool.false_eq_true]
    exact iht st fun w hw => hall w (by simp [hw])

lemma freezeKids_noFO_of (fuel : Nat)
    (ih : ∀ st coll, st.prev.Nodup →
      (∀ a ∈ prevAddrs st.prev, a < st.heap.length) →
      st.heap.length + 1 ≤ (prevAddrs st.prev).length + fuel →
      (baseFreeze fuel st coll).2 ≠ some .fuelOut) :
    ∀ (vs : List JSVal) (st : St), st.prev.Nodup →
      (∀ a ∈ prevAddrs st.prev, a < st.heap.length) →
      st.heap.length + 1 ≤ (prevAddrs st.prev).length + fuel →
      (freezeKids fuel st vs).2 ≠ some .fuelOut := by
  intro vs
  induction vs with
  | nil => intro st _ _ _; rw [freezeKids_nil]; simp
  | cons v t iht =>
    intro st hnd hlt hbound
    rw [freezeKids_cons]
    by_cases hc : weCareAbout st.heap v = true
    · simp only [hc, if_true]
      rcases hbf : baseFreeze fuel st v with ⟨st1, e⟩
      cases e with
      | some e =>
        have := ih st v hnd hlt hbound
        rw [hbf] at this
        simpa using this
      | none =>
        have hfe : FEq st.heap st1.heap := by
          have := baseFreeze_FEq fuel st v
          rw [hbf] at this
          exact this
        have hprev : st1.prev = st.prev := baseFreeze_prev_of_ok fuel st v st1 hbf
        have hlen : st1.heap.length = st.heap.length := FEq_length hfe
        exact iht st1 (by rw [hprev]; exact hnd)
          (by rw [hprev, hlen]; exact hlt) (by rw [hprev, hlen]; exact hbound)
    · simp only [hc, if_false, Bool.false_eq_true]
      exact iht st hnd hlt hbound

lemma baseFreeze_no_fuelOut : ∀ (fuel : Nat) (st : St) (coll : JSVal),
    st.prev.Nodup →
    (∀ a ∈ prevAddrs st.prev, a < st.heap.length) →
    st.heap.length + 1 ≤ (prevAddrs st.prev).length + fuel →
    (baseFreeze fuel st coll).2 ≠ some .fuelOut := by
  intro fuel
  induction fuel with
  | zero =>
    intro st coll hnd hlt hbound
    have := prevAddrs_length_le hnd hlt
    omega
  | succ n ih =>
    intro st coll hnd hlt hbound
    rw [baseFreeze_succ]
    by_cases hm : coll ∈ st.prev
    · simp [hm]
    · simp only [hm, if_false]
      by_cases hval : ∃ a, coll = .ref a ∧ a < st.heap.length
      · obtain ⟨a, hca, halt⟩ := hval
        have hnd2 : (st.prev ++ [coll]).Nodup := by
          rw [List.nodup_append]
          exact ⟨hnd, List.nodup_singleton _, by simpa using hm⟩
        have hlt2 : ∀ b ∈ prevAddrs (st.prev ++ [coll]), b < st.heap.length := by
          intro b hb
          rw [prevAddrs_append] at hb
          rcases List.mem_append.mp hb with hb | hb
          · exact hlt b hb
          · subst hca
            simp [prevAddrs, refAddr] at hb
            omega
        have hbound2 : st.heap.length + 1 ≤
            (prevAddrs (st.prev ++ [coll])).length + n := by
          subst hca
          rw [prevAddrs_append]
          have h1 : prevAddrs [JSVal.ref a] = [a] := rfl
          rw [h1, List.length_append, List.length_singleton]
          omega
        rcases hk : freezeKids n { st with prev := st.prev ++ [coll] }
            ((ownFields st.heap coll).reverse.map Prod.snd) with ⟨st2, e⟩
        cases e with
        | some e =>
          have := freezeKids_noFO_of n ih
            ((ownFields st.heap coll).reverse.map Prod.snd)
            { st with prev := st.prev ++ [coll] } hnd2 hlt2 hbound2
          rw [hk] at this
          simpa using this
        | none => simp
      · have hk := freezeKids_skip n
          ((ownFields st.heap coll).reverse.map Prod.snd)
          { st with prev := st.prev ++ [coll] }
          (kids_not_care (by simpa using hval))
        rw [hk]
        simp

/-! ## Containment reachability through collections of interest -/

/-- `edgeB h a b`: the object at address `a` has an own property whose value
is a reference to `b`, and that reference is a collection of interest (the
freeze recursion descends exactly along such edges). -/
def edgeB (h : Heap) (a b : Nat) : Bool :=
  (match h[a]? with
   | some o => o.fields.any fun kv => decide (kv.2 = JSVal.ref b)
   | none => false) && weCareAbout h (.ref b)

/-- Zero or more containment edges. -/
def Reach (h : Heap) : Nat → Nat → Prop :=
  Relation.ReflTransGen fun a b => edgeB h a b = true

/-- One or more containment edges. -/
def ReachP (h : Heap) : Nat → Nat → Prop :=
  Relation.TransGen fun a b => edgeB h a b = true

lemma edgeB_FEq {h h2 : Heap} (e : FEq h h2) (a b : Nat) :
    edgeB h2 a b = edgeB h a b := by
  unfold edgeB
  rw [weCareAbout_agree (agree_of_FEq e _)]
  cases ho : h[a]? with
  | none => rw [heapAgree_none (FEq_get e a) ho]
  | some o =>
    obtain ⟨o2, ho2, hf, _, _, _⟩ := heapAgree_some (FEq_get e a) ho
    simp only [ho2, hf]

lemma Reach_FEq {h h2 : Heap} (e : FEq h h2) {a b : Nat} (hr : Reach h a b) :
    Reach h2 a b := by
  refine Relation.ReflTransGen.mono ?_ hr
  intro x y hxy
  rw [edgeB_FEq e]
  exact hxy

lemma ReachP_FEq {h h2 : Heap} (e : FEq h h2) {a b : Nat} (hr : ReachP h a b) :
    ReachP h2 a b := by
  refine Relation.TransGen.mono ?_ hr
  intro x y hxy
  rw [edgeB_FEq e]
  exact hxy

/-- Decompose an edge: care and membership among the freeze children. -/
lemma edge_dest {h : Heap} {a c : Nat} (hedge : edgeB h a c = true) :
    weCareAbout h (.ref c) = true ∧
      JSVal.ref c ∈ (ownFields h (.ref a)).reverse.map Prod.snd := by
  unfold edgeB at hedge
  rw [Bool.and_eq_true] at hedge
  obtain ⟨hmem, hcare⟩ := hedge
  refine ⟨hcare, ?_⟩
  cases ho : h[a]? with
  | none => rw [ho] at hmem; simp at hmem
  | some o =>
    rw [ho] at hmem
    rw [List.any_eq_true] at hmem
    obtain ⟨kv, hkv, hkvc⟩ := hmem
    rw [decide_eq_true_eq] at hkvc
    rw [List.mem_map]
    exact ⟨kv, by rw [List.mem_reverse, ownFields, ho]; exact hkv, hkvc⟩

/-- Only references are collections of interest. -/
lemma care_ref {h : Heap} {v : JSVal} (hc : weCareAbout h v = true) :
    ∃ b, v = .ref b := by
  cases v with
  | ref b => exact ⟨b, rfl⟩
  | undefined => simp [weCareAbout, isArrayV, isObjectLike] at hc
  | jsnull => simp [weCareAbout] at hc
  | boolV b => simp [weCareAbout, isArrayV, isObjectLike] at hc
  | numV n => simp [weCareAbout, isArrayV, isObjectLike] at hc
  | strV s => simp [weCareAbout, isArrayV, isObjectLike] at hc

/-- A cared-about freeze child of the object at `a` is an edge target. -/
lemma kid_edge {h : Heap} {a : Nat} {v : JSVal}
    (hv : v ∈ (ownFields h (.ref a)).reverse.map Prod.snd)
    (hc : weCareAbout h v = true) : ∃ c, v = .ref c ∧ edgeB h a c = true := by
  obtain ⟨c, hvc⟩ := care_ref hc
  subst hvc
  refine ⟨c, rfl, ?_⟩
  unfold edgeB
  rw [Bool.and_eq_true]
  refine ⟨?_, hc⟩
  rw [List.mem_map] at hv
  obtain ⟨kv, hkv, hkveq⟩ := hv
  rw [List.mem_reverse] at hkv
  cases ho : h[a]? with
  | none => rw [ownFields, ho] at hkv; simp at hkv
  | some o =>
    rw [ownFields, ho] at hkv
    rw [List.any_eq_true]
    exact ⟨kv, hkv, by rw [decide_eq_true_eq]; exact hkveq⟩

/-! ## Freezing errors whenever the traversal can reach an ancestor -/

lemma freezeKids_hit_of (fuel : Nat)
    (ih : ∀ st a b, Reach st.heap a b → JSVal.ref b ∈ st.prev →
      (baseFreeze fuel st (.ref a)).2 ≠ none) :
    ∀ (vs : List JSVal) (st : St) (c b : Nat), JSVal.ref c ∈ vs →
      weCareAbout st.heap (.ref c) = true → Reach st.heap c b →
      JSVal.ref b ∈ st.prev → (freezeKids fuel st vs).2 ≠ none := by
  intro vs
  induction vs with
  | nil => intro st c b hin; simp at hin
  | cons v t iht =>
    intro st c b hin hcare hre hmem
    rw [freezeKids_cons]
    rcases List.mem_cons.mp hin with hv | hv
    · rw [← hv]
      simp only [hcare, if_true]
      rcases hbf : baseFreeze fuel st (.ref c) with ⟨st1, e⟩
      cases e with
      | none =>
        have := ih st c b hre hmem
        rw [hbf] at this
        simp at this
      | some e => simp
    · by_cases hcv : weCareAbout st.heap v = true
      · simp only [hcv, if_true]
        rcases hbf : baseFreeze fuel st v with ⟨st1, e⟩
        cases e with
        | some e => simp
        | none =>
          have hfe : FEq st.heap st1.heap := by
            have := baseFreeze_FEq fuel st v
            rw [hbf] at this
            exact this
          have hprev : st1.prev = st.prev := baseFreeze_prev_of_ok fuel st v st1 hbf
          refine iht st1 c b hv ?_ (Reach_FEq hfe hre) (by rw [hprev]; exact hmem)
          rw [weCareAbout_agree (agree_of_FEq hfe _)]
          exact hcare
      · simp only [hcv, if_false, Bool.false_eq_true]
        exact iht st c b hv hcare hre hmem

lemma baseFreeze_hit : ∀ (fuel : Nat) (st : St) (a b : Nat),
    Reach st.heap a b → JSVal.ref b ∈ st.prev →
    (baseFreeze fuel st (.ref a)).2 ≠ none := by
  intro fuel
  induction fuel with
  | zero => intro st a b _ _; rw [baseFreeze_zero]; simp
  | succ n ih =>
    intro st a b hre hmem
    rw [baseFreeze_succ]
    by_cases hm : JSVal.ref a ∈ st.prev
    · simp [hm]
    · simp only [hm, if_false]
      rcases (Relation.ReflTransGen.cases_head hre) with heq | ⟨c, hedge, hre2⟩
      · exact absurd (heq ▸ hmem) hm
      · obtain ⟨hcare, hkid⟩ := edge_dest hedge
        rcases hk : freezeKids n { st with prev := st.prev ++ [JSVal.ref a] }
            ((ownFields st.heap (.ref a)).reverse.map Prod.snd) with ⟨st2, e⟩
        cases e with
        | some e => simp
        | none =>
          have := freezeKids_hit_of n ih
            ((ownFields st.heap (.ref a)).reverse.map Prod.snd)
            { st with prev := st.prev ++ [JSVal.ref a] } c b hkid hcare hre2
            (by simp; exact Or.inl hmem)
          rw [hk] at this
          simp at this

/-! ## Freezing cannot raise the cycle error without a reachable ancestor -/

lemma freezeKids_noCycle_of (fuel : Nat)
    (ih : ∀ st a, (∀ c, Reach st.heap a c → ¬ ReachP st.heap c c) →
      (∀ b, JSVal.ref b ∈ st.prev → ¬ Reach st.heap a b) →
      (baseFreeze fuel st (.ref a)).2 ≠ some .cycle) :
    ∀ (vs : List JSVal) (st : St),
      (∀ v ∈ vs, weCareAbout st.heap v = true →
        ∃ c, v = .ref c ∧ (∀ d, Reach st.heap c d → ¬ ReachP st.heap d d) ∧
          (∀ b, JSVal.ref b ∈ st.prev → ¬ Reach st.heap c b)) →
      (freezeKids fuel st vs).2 ≠ some .cycle := by
  intro vs
  induction vs with
  | nil => intro st _; rw [freezeKids_nil]; simp
  | cons v t iht =>
    intro st hall
    rw [freezeKids_cons]
    by_cases hcv : weCareAbout st.heap v = true
    · simp only [hcv, if_true]
      obtain ⟨c, hvc, hA, hB⟩ := hall v (by simp) hcv
      subst hvc
      rcases hbf : baseFreeze fuel st (.ref c) with ⟨st1, e⟩
      cases e with
      | some e =>
        have := ih st c hA hB
        rw [hbf] at this
        simp only at this ⊢
        intro hcon
        rw [hcon] at this
        exact this rfl
      | none =>
        have hfe : FEq st.heap st1.heap := by
          have := baseFreeze_FEq fuel st (.ref c)
          rw [hbf] at this
          exact this
        have hprev : st1.prev = st.prev := baseFreeze_prev_of_ok fuel st _ st1 hbf
        refine iht st1 ?_
        intro w hw hcarew
        have hcarew0 : weCareAbout st.heap w = true := by
          rw [weCareAbout_agree (agree_of_FEq hfe _)] at hcarew
          exact hcarew
        obtain ⟨d, hwd, hA2, hB2⟩ := hall w (by simp [hw]) hcarew0
        refine ⟨d, hwd, ?_, ?_⟩
        · intro x hx hcon
          have hfe2 : FEq st1.heap st.heap := by
            unfold FEq at hfe ⊢
            exact hfe.symm
          exact hA2 x (Reach_FEq hfe2 hx) (ReachP_FEq hfe2 hcon)
        · intro b hb hcon
          have hfe2 : FEq st1.heap st.heap := by
            unfold FEq at hfe ⊢
            exact hfe.symm
          rw [hprev] at hb
          exact hB2 b hb (Reach_FEq hfe2 hcon)
    · simp only [hcv, if_false, Bool.false_eq_true]
      refine iht st ?_
      intro w hw hcarew
      exact hall w (by simp [hw]) hcarew

lemma baseFreeze_noCycle : ∀ (fuel : Nat) (st : St) (a : Nat),
    (∀ c, Reach st.heap a c → ¬ ReachP st.heap c c) →
    (∀ b, JSVal.ref b ∈ st.prev → ¬ Reach st.heap a b) →
    (baseFreeze fuel st (.ref a)).2 ≠ some .cycle := by
  intro fuel
  induction fuel with
  | zero => intro st a _ _; rw [baseFreeze_zero]; simp
  | succ n ih =>
    intro st a hA hB
    rw [baseFreeze_succ]
    by_cases hm : JSVal.ref a ∈ st.prev
    · exact absurd Relation.ReflTransGen.refl (hB a hm)
    · simp only [hm, if_false]
      rcases hk : freezeKids n { st with prev := st.prev ++ [JSVal.ref a] }
          ((ownFields st.heap (.ref a)).reverse.map Prod.snd) with ⟨st2, e⟩
      cases e with
      | some e =>
        have := freezeKids_noCycle_of n ih
          ((ownFields st.heap (.ref a)).reverse.map Prod.snd)
          { st with prev := st.prev ++ [JSVal.ref a] } ?_
        · rw [hk] at this
          simp only at this ⊢
          intro hcon
          rw [hcon] at this
          exact this rfl
        · intro v hv hcarev
          obtain ⟨c, hvc, hedge⟩ := kid_edge hv hcarev
          refine ⟨c, hvc, ?_, ?_⟩
          · intro d hd
            have hd2 : Reach st.heap c d := hd
            exact hA d (Relation.ReflTransGen.head hedge hd2)
          · intro b2 hb hcon
            have hcon2 : Reach st.heap c b2 := hcon
            simp only [List.mem_append, List.mem_singleton] at hb
            rcases hb with hb | hb
            · exact hB b2 hb (Relation.ReflTransGen.head hedge hcon2)
            · have hba : b2 = a := by injection hb
              subst hba
              exact hA b2 Relation.ReflTransGen.refl
                (Relation.TransGen.head' hedge hcon2)
      | none => simp

/-! ## Reachability helpers -/

lemma care_valid {h : Heap} {b : Nat}
    (hc : weCareAbout h (.ref b) = true) : b < h.length := by
  by_contra hge
  have hnone : h[b]? = none := List.getElem?_eq_none (Nat.le_of_not_lt hge)
  simp [weCareAbout, isArrayV, isObjectLike, hnone] at hc

lemma edgeB_lt {h : Heap} {a b : Nat} (he : edgeB h a b = true) :
    a < h.length ∧ b < h.length := by
  unfold edgeB at he
  rw [Bool.and_eq_true] at he
  obtain ⟨hmem, hcare⟩ := he
  refine ⟨?_, care_valid hcare⟩
  by_contra hge
  have hnone : h[a]? = none := List.getElem?_eq_none (Nat.le_of_not_lt hge)
  rw [hnone] at hmem
  simp at hmem

/-- A rank function decreasing along every containment edge certifies that a
concrete heap has no containment cycle. -/
lemma noCycle_of_rank {h : Heap} (f : Nat → Nat)
    (hf : ∀ a, a < h.length → ∀ b, b < h.length → edgeB h a b = true → f b < f a) :
    ∀ c, ¬ ReachP h c c := by
  have hstep : ∀ x y, ReachP h x y → f y < f x := by
    intro x y hxy
    induction hxy with
    | single he => exact hf _ (edgeB_lt he).1 _ (edgeB_lt he).2 he
    | tail _ hbc ih =>
      exact lt_trans (hf _ (edgeB_lt hbc).1 _ (edgeB_lt hbc).2 hbc) ih
  intro c hc
  exact lt_irrefl _ (hstep c c hc)

/-- A self-reaching root makes `baseFreeze` fail. -/
lemma baseFreeze_cyclic_not_ok (fuel : Nat) (st : St) (a : Nat)
    (hcyc : ReachP st.heap a a) :
    (baseFreeze (fuel + 1) st (.ref a)).2 ≠ none := by
  rw [baseFreeze_succ]
  by_cases hm : JSVal.ref a ∈ st.prev
  · simp [hm]
  · simp only [hm, if_false]
    have hdec : ∃ c, edgeB st.heap a c = true ∧ Reach st.heap c a :=
      Relation.TransGen.head'_iff.mp hcyc
    obtain ⟨c, hedge, hreach⟩ := hdec
    obtain ⟨hcare, hkid⟩ := edge_dest hedge
    rcases hk : freezeKids fuel { st with prev := st.prev ++ [JSVal.ref a] }
        ((ownFields st.heap (.ref a)).reverse.map Prod.snd) with ⟨st2, e⟩
    cases e with
    | some e => simp
    | none =>
      have := freezeKids_hit_of fuel (fun st a b => baseFreeze_hit fuel st a b)
        ((ownFields st.heap (.ref a)).reverse.map Prod.snd)
        { st with prev := st.prev ++ [JSVal.ref a] } c a hkid hcare hreach
        (by simp)
      rw [hk] at this
      simp at this

/-- **C2.** Cycle rejection: a collection that transitively contains a
reference back to itself makes `freeze` raise the reference-cycle error; a
collection from which no containment cycle is reachable freezes without
error — in particular a collection holding the same nested collection at two
sibling positions (shared, but never its own ancestor) freezes fine. -/
theorem freeze_cycle_rejection :
    (∀ (h : Heap) (a : Nat), ReachP h a a →
      (freeze false ⟨h, []⟩ (.ref a)).2 = some .cycle) ∧
    (∀ (h : Heap) (a : Nat), (∀ c, Reach h a c → ¬ ReachP h c c) →
      (freeze false ⟨h, []⟩ (.ref a)).2 = none) ∧
    (freeze false ⟨[⟨false, Ctor.object, Proto.objectProto,
        [("a", JSVal.ref 1), ("b", JSVal.ref 1)], false⟩,
      ⟨false, Ctor.object, Proto.objectProto, [], false⟩], []⟩ (.ref 0)).2 = none := by
  have hside : ∀ (h : Heap) (a : Nat),
      (freeze false ⟨h, []⟩ (.ref a)).2 ≠ some .fuelOut ∧
      (freeze false ⟨h, []⟩ (.ref a)).2 ≠ some .typeError := by
    intro h a
    constructor
    · show (baseFreeze (freezeFuel h) ⟨h, []⟩ (.ref a)).2 ≠ some .fuelOut
      refine baseFreeze_no_fuelOut _ _ _ List.nodup_nil ?_ ?_
      · intro x hx
        simp [prevAddrs] at hx
      · simp [freezeFuel, prevAddrs]
    · exact baseFreeze_no_typeError _ _ _
  refine ⟨?_, ?_, by decide⟩
  · intro h a hcyc
    have hne : (freeze false ⟨h, []⟩ (.ref a)).2 ≠ none :=
      baseFreeze_cyclic_not_ok (h.length + 1) ⟨h, []⟩ a hcyc
    cases hr : (freeze false ⟨h, []⟩ (.ref a)).2 with
    | none => exact absurd hr hne
    | some e =>
      cases e with
      | cycle => rfl
      | typeError => exact absurd hr (hside h a).2
      | fuelOut => exact absurd hr (hside h a).1
  · intro h a hA
    have hnc : (freeze false ⟨h, []⟩ (.ref a)).2 ≠ some .cycle := by
      show (baseFreeze (freezeFuel h) ⟨h, []⟩ (.ref a)).2 ≠ some .cycle
      refine baseFreeze_noCycle _ _ _ hA ?_
      intro b hb
      simp at hb
    cases hr : (freeze false ⟨h, []⟩ (.ref a)).2 with
    | none => rfl
    | some e =>
      cases e with
      | cycle => exact absurd hr hnc
      | typeError => exact absurd hr (hside h a).2
      | fuelOut => exact absurd hr (hside h a).1

/-- Witness for C2: the one-object self-cycle raises the cycle error, and an
acyclic parent/child pair freezes without error, via the theorem. -/
theorem freeze_cycle_rejection_witness :
    (freeze false ⟨[⟨false, Ctor.object, Proto.objectProto,
        [("a", JSVal.ref 0)], false⟩], []⟩ (.ref 0)).2 = some .cycle ∧
    (freeze false ⟨[⟨false, Ctor.object, Proto.objectProto,
        [("x", JSVal.ref 1)], false⟩,
      ⟨false, Ctor.object, Proto.objectProto, [], false⟩], []⟩ (.ref 0)).2 = none := by
  constructor
  · exact freeze_cycle_rejection.1 _ 0 (Relation.TransGen.single (by decide))
  · exact freeze_cycle_rejection.2.1 _ 0
      (fun c _ => noCycle_of_rank (fun n => 1 - n) (by decide) c)

/-! ## Field list lemmas -/

lemma fGet_fSet_same (fs : List (String × JSVal)) (k : String) (v : JSVal) :
    fGet (fSet fs k v) k = some v := by
  induction fs with
  | nil => simp [fSet, fGet]
  | cons kv t ih =>
    rcases kv with ⟨k1, v1⟩
    by_cases hk : k1 = k
    · simp [fSet, fGet, hk]
    · simp [fSet, fGet, hk, ih]

lemma fGet_fSet_other (fs : List (String × JSVal)) (k k2 : String) (v : JSVal)
    (hne : k2 ≠ k) : fGet (fSet fs k v) k2 = fGet fs k2 := by
  induction fs with
  | nil =>
    simp only [fSet, fGet]
    rw [if_neg (fun h => hne h.symm)]
  | cons kv t ih =>
    rcases kv with ⟨k1, v1⟩
    by_cases hk : k1 = k
    · have hne2 : ¬ k1 = k2 := fun h => hne (h.symm.trans hk)
      rw [fSet, if_pos hk, fGet, fGet, if_neg hne2, if_neg hne2]
    · rw [fSet, if_neg hk, fGet, fGet]
      by_cases hk2 : k1 = k2
      · rw [if_pos hk2, if_pos hk2]
      · rw [if_neg hk2, if_neg hk2, ih]

lemma fGet_mem {fs : List (String × JSVal)} {k : String} {v : JSVal}
    (h : fGet fs k = some v) : (k, v) ∈ fs := by
  induction fs with
  | nil => simp [fGet] at h
  | cons kv t ih =>
    rcases kv with ⟨k1, v1⟩
    by_cases hk : k1 = k
    · subst hk
      rw [fGet, if_pos rfl] at h
      cases h
      simp
    · rw [fGet, if_neg hk] at h
      simp [ih h]

lemma fSet_all {p : JSVal → Bool} {fs : List (String × JSVal)} {k : String}
    {v : JSVal} (hfs : ∀ kv ∈ fs, p kv.2 = true) (hv : p v = true) :
    ∀ kv ∈ fSet fs k v, p kv.2 = true := by
  induction fs with
  | nil =>
    intro kv hkv
    simp [fSet] at hkv
    rw [hkv]
    exact hv
  | cons kv1 t ih =>
    rcases kv1 with ⟨k1, v1⟩
    intro kv hkv
    by_cases hk : k1 = k
    · rw [fSet, if_pos hk] at hkv
      rcases List.mem_cons.mp hkv with h | h
      · rw [h]; exact hv
      · exact hfs kv (by simp [h])
    · rw [fSet, if_neg hk] at hkv
      rcases List.mem_cons.mp hkv with h | h
      · exact hfs kv (by simp [h])
      · exact ih (fun kv2 hkv2 => hfs kv2 (by simp [hkv2])) kv h

lemma fDel_all {p : JSVal → Bool} {fs : List (String × JSVal)} {k : String}
    (hfs : ∀ kv ∈ fs, p kv.2 = true) :
    ∀ kv ∈ fDel fs k, p kv.2 = true := by
  induction fs with
  | nil => intro kv hkv; simp [fDel] at hkv
  | cons kv1 t ih =>
    rcases kv1 with ⟨k1, v1⟩
    intro kv hkv
    by_cases hk : k1 = k
    · rw [fDel, if_pos hk] at hkv
      exact hfs kv (by simp [hkv])
    · rw [fDel, if_neg hk] at hkv
      rcases List.mem_cons.mp hkv with h | h
      · exact hfs kv (by simp [h])
      · exact ih (fun kv2 hkv2 => hfs kv2 (by simp [hkv2])) kv h

/-! ## Closed-heap lemmas -/

lemma heapClosed_fields {h : Heap} (hc : heapClosed h = true) {a : Nat}
    {o : HeapObj} (ho : h[a]? = some o) :
    ∀ kv ∈ o.fields, valIn h.length kv.2 = true := by
  unfold heapClosed at hc
  rw [List.all_eq_true] at hc
  have homem : o ∈ h := by
    have := List.getElem?_eq_some_iff.mp ho
    obtain ⟨hlt, heq⟩ := this
    exact heq ▸ List.getElem_mem hlt
  have := hc o homem
  rw [List.all_eq_true] at this
  exact this

lemma ownFields_closed {h : Heap} (hc : heapClosed h = true) {v : JSVal}
    (hv : valIn h.length v = true) :
    ∀ kv ∈ ownFields h v, valIn h.length kv.2 = true := by
  cases v with
  | ref a =>
    cases ho : h[a]? with
    | none => intro kv hkv; rw [ownFields, ho] at hkv; simp at hkv
    | some o =>
      intro kv hkv
      rw [ownFields, ho] at hkv
      exact heapClosed_fields hc ho kv hkv
  | strV s =>
    intro kv hkv
    rw [ownFields] at hkv
    rw [List.mem_map] at hkv
    obtain ⟨p, _, hp⟩ := hkv
    rw [← hp]
    rfl
  | undefined => intro kv hkv; simp [ownFields] at hkv
  | jsnull => intro kv hkv; simp [ownFields] at hkv
  | boolV b => intro kv hkv; simp [ownFields] at hkv
  | numV n => intro kv hkv; simp [ownFields] at hkv

lemma getProp_closed {h : Heap} (hc : heapClosed h = true) {v : JSVal}
    (hv : valIn h.length v = true) (k : String) :
    valIn h.length (getProp h v k) = true := by
  cases v with
  | ref a =>
    cases ho : h[a]? with
    | none => simp [getProp, ho, valIn]
    | some o =>
      cases hg : fGet o.fields k with
      | none => simp [getProp, ho, hg, valIn]
      | some w =>
        have := heapClosed_fields hc ho (k, w) (fGet_mem hg)
        simpa [getProp, ho, hg] using this
  | strV s =>
    rw [getProp]
    split
    · rfl
    · split
      · split
        · rfl
        · rfl
      · rfl
  | undefined => rfl
  | jsnull => rfl
  | boolV b => rfl
  | numV n => rfl

/-- `heapClosed` only depends on the frozen-flag-erased heap. -/
lemma FEq_heapClosed {h h2 : Heap} (e : FEq h h2) :
    heapClosed h2 = heapClosed h := by
  have hlen : h2.length = h.length := FEq_length e
  unfold heapClosed
  rw [hlen]
  have hmap : h2.map HeapObj.fields = h.map HeapObj.fields := by
    have e2 := congrArg (List.map HeapObj.fields) e
    simpa [Function.comp] using e2
  have key : ∀ (g : Heap), (g.all fun o => o.fields.all fun kv => valIn h.length kv.2)
      = (g.map HeapObj.fields).all fun fs => fs.all fun kv => valIn h.length kv.2 := by
    intro g
    induction g with
    | nil => rfl
    | cons o t ih => simp only [List.all_cons, List.map_cons, ih]
  rw [key h2, key h, hmap]

/-! ## Operation-effect lemmas: clone, freezeIfNeeded, assoc -/

lemma cloneVal_spec (st : St) (v : JSVal) :
    ∃ o : HeapObj, cloneVal st v = ({ st with heap := st.heap ++ [o] }, .ref st.heap.length) ∧
      o.fields = ownFields st.heap v ∧ o.frozen = false := by
  unfold cloneVal alloc
  by_cases h1 : isArrayV st.heap v = true
  · rw [if_pos h1]
    exact ⟨_, rfl, rfl, rfl⟩
  · rw [if_neg h1]
    by_cases h2 : ctorOf st.heap v = Ctor.absent
    · rw [if_pos h2]
      exact ⟨_, rfl, rfl, rfl⟩
    · rw [if_neg h2]
      exact ⟨_, rfl, rfl, rfl⟩

lemma freezeIfNeeded_FEq (prod : Bool) (st : St) (v : JSVal) :
    FEq st.heap (freezeIfNeeded prod st v).1.heap := by
  unfold freezeIfNeeded
  cases prod with
  | true => exact FEq_refl _
  | false =>
    simp only [Bool.false_eq_true, if_false]
    by_cases hc : (weCareAbout st.heap v && !isFrozenV st.heap v) = true
    · rw [if_pos hc]
      exact baseFreeze_FEq _ _ _
    · rw [if_neg hc]
      exact FEq_refl _

lemma freezeIfNeeded_prev_of_ok {prod : Bool} {st : St} {v : JSVal} {st2 : St}
    (h : freezeIfNeeded prod st v = (st2, none)) : st2.prev = st.prev := by
  unfold freezeIfNeeded at h
  cases prod with
  | true => cases h; rfl
  | false =>
    simp only [Bool.false_eq_true, if_false] at h
    by_cases hc : (weCareAbout st.heap v && !isFrozenV st.heap v) = true
    · rw [if_pos hc] at h
      exact baseFreeze_prev_of_ok _ _ _ _ h
    · rw [if_neg hc] at h
      cases h
      rfl

lemma freezeIfNeeded_no_fuelOut (prod : Bool) (st : St) (v : JSVal)
    (hprev : st.prev = []) : (freezeIfNeeded prod st v).2 ≠ some .fuelOut := by
  unfold freezeIfNeeded
  cases prod with
  | true => simp
  | false =>
    simp only [Bool.false_eq_true, if_false]
    by_cases hc : (weCareAbout st.heap v && !isFrozenV st.heap v) = true
    · rw [if_pos hc]
      refine baseFreeze_no_fuelOut _ _ _ ?_ ?_ ?_
      · rw [hprev]; exact List.nodup_nil
      · intro a ha; rw [hprev] at ha; simp [prevAddrs] at ha
      · rw [hprev]; simp [freezeFuel, prevAddrs]
    · rw [if_neg hc]
      simp

lemma freezeIfNeeded_no_typeError (prod : Bool) (st : St) (v : JSVal) :
    (freezeIfNeeded prod st v).2 ≠ some .typeError := by
  unfold freezeIfNeeded
  cases prod with
  | true => simp
  | false =>
    simp only [Bool.false_eq_true, if_false]
    by_cases hc : (weCareAbout st.heap v && !isFrozenV st.heap v) = true
    · rw [if_pos hc]
      exact baseFreeze_no_typeError _ _ _
    · rw [if_neg hc]
      simp

/-- Case analysis of a successful `assoc`: either the identity-preserving
short-circuit fired, or a fresh clone carrying the assigned key was
returned.  Bundles the facts needed downstream. -/
lemma assoc_ok_spec {prod : Bool} {st : St} {coll : JSVal} {k : String}
    {v : JSVal} {st2 : St} {x : JSVal}
    (h : assoc prod st coll k v = (st2, .ok x)) :
    HExt st.heap st2.heap ∧ st2.prev = st.prev ∧ getProp st2.heap x k = v ∧
      ((x = coll ∧ getProp st.heap coll k = v ∧ FEq st.heap st2.heap) ∨
       (x = .ref st.heap.length ∧ st.heap.length < st2.heap.length ∧
         (∀ a : Nat, coll = .ref a → ∀ k2, k2 ≠ k →
           getProp st2.heap x k2 = getProp st.heap coll k2))) := by
  unfold assoc at h
  by_cases he : getProp st.heap coll k = v
  · rw [if_pos he] at h
    injection h with h1 h2
    injection h2 with h2
    subst h1
    subst h2
    have hfe := shallowFreeze_FEq prod st coll
    refine ⟨FEq_hext hfe, shallowFreeze_prev prod st coll, ?_, Or.inl ⟨rfl, he, hfe⟩⟩
    rw [getProp_agree (agree_of_FEq hfe _), he]
  · rw [if_neg he] at h
    obtain ⟨o, hcl, hof, hfr⟩ := cloneVal_spec st coll
    simp only [hcl] at h
    rcases hf : freezeIfNeeded prod { st with heap := st.heap ++ [o] } v with ⟨stf, e⟩
    simp only [hf] at h
    cases e with
    | some e => simp at h
    | none =>
      have hfe2 : FEq (st.heap ++ [o]) stf.heap := by
        have := freezeIfNeeded_FEq prod { st with heap := st.heap ++ [o] } v
        rw [hf] at this
        exact this
      have hext1 : HExt st.heap (st.heap ++ [o]) := ⟨[stripF o], by simp⟩
      have hext2 : HExt st.heap stf.heap := HExt_trans hext1 (FEq_hext hfe2)
      have hg : (st.heap ++ [o])[st.heap.length]? = some o := by
        rw [List.getElem?_append_right (Nat.le_refl _)]
        simp
      obtain ⟨o2, ho2, hfl, _, _, _⟩ := heapAgree_some (FEq_get hfe2 st.heap.length) hg
      simp only [setProp, ho2] at h
      have hlt : st.heap.length < stf.heap.length := by
        have := FEq_length hfe2
        simp at this
        omega
      injection h with h1 h2
      injection h2 with h2
      subst h1
      subst h2
      have hfeS := shallowFreeze_FEq prod
        { stf with heap := (stf.heap.set st.heap.length
            ({ o2 with fields := fSet o2.fields k v })) } (.ref st.heap.length)
      have hextS : HExt st.heap (stf.heap.set st.heap.length
          ({ o2 with fields := fSet o2.fields k v })) :=
        heap_set_HExt hext2 (Nat.le_refl _) _
      have hget : getProp (stf.heap.set st.heap.length
          ({ o2 with fields := fSet o2.fields k v })) (.ref st.heap.length) k = v := by
        rw [getProp, List.getElem?_set_eq_of_lt _ hlt]
        simp [fGet_fSet_same]
      refine ⟨HExt_trans hextS (FEq_hext hfeS), ?_, ?_, Or.inr ⟨rfl, ?_, ?_⟩⟩
      · rw [shallowFreeze_prev]
        show stf.prev = st.prev
        have hpv := freezeIfNeeded_prev_of_ok hf
        exact hpv
      · rw [getProp_agree (agree_of_FEq hfeS _)]
        exact hget
      · have hlen := FEq_length hfeS
        simp only [List.length_map, List.length_set] at hlen ⊢
        omega
      · intro a hca k2 hk2
        subst hca
        rw [getProp_agree (agree_of_FEq hfeS _)]
        rw [getProp, List.getElem?_set_eq_of_lt _ hlt]
        simp only [Option.getD_some]
        rw [fGet_fSet_other _ _ _ _ hk2, hfl, hof]
        cases ho : st.heap[a]? with
        | none => rw [getProp, ho]; simp [ownFields, ho, fGet]
        | some oc => rw [getProp, ho]; simp [ownFields, ho]

/-- Case analysis of a failed `assoc`: the failure came from deep-freezing
the assigned value; old objects keep their shape, only the cycle error (or,
under an inadequate stale ancestor list, fuel exhaustion) can occur. -/
lemma assoc_err_spec {prod : Bool} {st : St} {coll : JSVal} {k : String}
    {v : JSVal} {st2 : St} {e : Err}
    (h : assoc prod st coll k v = (st2, .error e)) :
    HExt st.heap st2.heap ∧ e ≠ .typeError ∧ (st.prev = [] → e ≠ .fuelOut) := by
  unfold assoc at h
  by_cases he : getProp st.heap coll k = v
  · rw [if_pos he] at h
    simp at h
  · rw [if_neg he] at h
    obtain ⟨o, hcl, hof, hfr⟩ := cloneVal_spec st coll
    simp only [hcl] at h
    rcases hf : freezeIfNeeded prod { st with heap := st.heap ++ [o] } v with ⟨stf, e2⟩
    simp only [hf] at h
    cases e2 with
    | none => simp at h
    | some e2 =>
      injection h with h1 h2
      injection h2 with h2
      subst h1
      subst h2
      have hfe2 : FEq (st.heap ++ [o]) stf.heap := by
        have := freezeIfNeeded_FEq prod { st with heap := st.heap ++ [o] } v
        rw [hf] at this
        exact this
      refine ⟨HExt_trans ⟨[stripF o], by simp⟩ (FEq_hext hfe2), ?_, ?_⟩
      · intro hcon
        subst hcon
        have := freezeIfNeeded_no_typeError prod { st with heap := st.heap ++ [o] } v
        rw [hf] at this
        simp at this
      · intro hprev hcon
        subst hcon
        have := freezeIfNeeded_no_fuelOut prod { st with heap := st.heap ++ [o] } v hprev
        rw [hf] at this
        simp at this

/-- `assoc` only ever extends the heap and flips frozen flags. -/
lemma assoc_HExt (prod : Bool) (st : St) (coll : JSVal) (k : String) (v : JSVal) :
    HExt st.heap (assoc prod st coll k v).1.heap := by
  rcases ha : assoc prod st coll k v with ⟨st2, r⟩
  cases r with
  | ok x => exact (assoc_ok_spec ha).1
  | error e => exact (assoc_err_spec ha).1

/-- **C4.** Assoc identity preservation: for an existing key, storing back
the value already held at that key returns the original collection
reference, with no clone. -/
theorem assoc_identity_preservation (prod : Bool) (st : St) (coll : JSVal)
    (key : String) (hown : ownsB st.heap coll key = true) :
    (assoc prod st coll key (getProp st.heap coll key)).2 = .ok coll := by
  unfold assoc
  rw [if_pos rfl]

/-- Witness for C4 at `assoc({a:1}, "a", 1)`. -/
theorem assoc_identity_preservation_witness :
    ownsB [⟨false, Ctor.object, Proto.objectProto, [("a", JSVal.numV 1)], false⟩]
      (.ref 0) "a" = true ∧
    (assoc false ⟨[⟨false, Ctor.object, Proto.objectProto,
        [("a", JSVal.numV 1)], false⟩], []⟩ (.ref 0) "a"
      (getProp [⟨false, Ctor.object, Proto.objectProto, [("a", JSVal.numV 1)], false⟩]
        (.ref 0) "a")).2 = .ok (.ref 0) :=
  ⟨by decide, assoc_identity_preservation false
    ⟨[⟨false, Ctor.object, Proto.objectProto, [("a", JSVal.numV 1)], false⟩], []⟩
    (.ref 0) "a" (by decide)⟩

/-- The concrete structure refuting C3: `{a: c, b: {}}` where `c = {s: c}`
is cyclic; `forKeys` iterates keys in reverse, so the `b` subtree is frozen
before the cycle in `a` is discovered. -/
def heapC3 : Heap :=
  [⟨false, Ctor.object, Proto.objectProto,
     [("a", JSVal.ref 1), ("b", JSVal.ref 2)], false⟩,
   ⟨false, Ctor.object, Proto.objectProto, [("s", JSVal.ref 1)], false⟩,
   ⟨false, Ctor.object, Proto.objectProto, [], false⟩]

/-- **C3 counterexample.** `freeze` raises the cycle error on `heapC3`, yet
the `b` subtree — unfrozen on entry — has been newly frozen by the failed
call, and the module-global ancestor list retains entries: the failure is
not atomic. -/
theorem freeze_atomicity_cex :
    (freeze false ⟨heapC3, []⟩ (.ref 0)).2 = some .cycle ∧
    isFrozenV heapC3 (.ref 2) = false ∧
    isFrozenV (freeze false ⟨heapC3, []⟩ (.ref 0)).1.heap (.ref 2) = true ∧
    (freeze false ⟨heapC3, []⟩ (.ref 0)).1.prev = [JSVal.ref 0, JSVal.ref 1] := by
  decide

/-- **C3 amended.** When an operation raises, the keys and values of every
pre-existing object are unchanged — mutation is confined to frozen flags,
fresh allocations, and the module-global ancestor list; but (per the
counterexample) already-traversed subtrees may have been newly frozen, so
failure is not fully atomic.  `baseFreeze` preserves every object's content
(heap shape) in all outcomes, and `assoc` at most extends the heap. -/
theorem ops_preserve_structure :
    (∀ (fuel : Nat) (st : St) (coll : JSVal),
      FEq st.heap (baseFreeze fuel st coll).1.heap) ∧
    (∀ (prod : Bool) (st : St) (coll : JSVal) (k : String) (v : JSVal),
      HExt st.heap (assoc prod st coll k v).1.heap) :=
  ⟨baseFreeze_FEq, assoc_HExt⟩

/-! ## Classification claim -/

/-- `typeof val === 'object'` (in JavaScript, `typeof null` is `'object'`). -/
def typeofObject : JSVal → Bool
  | .jsnull => true
  | .ref _ => true
  | _ => false

/-- The prototype classification of a value (primitive wrappers and dangling
references count as non-default). -/
def protoOf (h : Heap) (v : JSVal) : Proto :=
  match v with
  | .ref a =>
    match h[a]? with
    | some o => o.proto
    | none => Proto.other
  | _ => Proto.other

/-- **C7.** Classification of collections of interest: `weCareAbout` accepts
any sequence unconditionally, and accepts a mapping-like value exactly when
it is not null, of object type, its constructor is the generic object
constructor or absent, and its prototype is the default object prototype or
null; in particular an object with a null prototype (hence no constructor)
is classified as a collection. -/
theorem weCareAbout_classification :
    (∀ (h : Heap) (v : JSVal), weCareAbout h v = true ↔
      (isArrayV h v = true ∨
        (v ≠ JSVal.jsnull ∧ typeofObject v = true ∧
          (ctorOf h v = Ctor.object ∨ ctorOf h v = Ctor.absent) ∧
          (protoOf h v = Proto.objectProto ∨ protoOf h v = Proto.nullProto)))) ∧
    weCareAbout [⟨false, Ctor.absent, Proto.nullProto, [], false⟩] (.ref 0) = true := by
  constructor
  · intro h v
    cases v with
    | ref a =>
      cases ho : h[a]? with
      | none =>
        simp [weCareAbout, isArrayV, isObjectLike, typeofObject, ctorOf, protoOf, ho]
      | some o =>
        simp only [weCareAbout, isArrayV, isObjectLike, typeofObject, ctorOf,
          protoOf, ho, Bool.and_eq_true, Bool.or_eq_true, decide_eq_true_eq]
        constructor
        · rintro ⟨-, harr | hobj⟩
          · exact Or.inl harr
          · exact Or.inr ⟨by simp, trivial, hobj.1, hobj.2⟩
        · rintro (harr | ⟨-, -, hc, hp⟩)
          · exact ⟨by simp, Or.inl harr⟩
          · exact ⟨by simp, Or.inr ⟨hc, hp⟩⟩
    | undefined => simp [weCareAbout, isArrayV, isObjectLike, typeofObject]
    | jsnull => simp [weCareAbout, isArrayV, isObjectLike, typeofObject]
    | boolV b => simp [weCareAbout, isArrayV, isObjectLike, typeofObject, ctorOf]
    | numV n => simp [weCareAbout, isArrayV, isObjectLike, typeofObject, ctorOf]
    | strV s => simp [weCareAbout, isArrayV, isObjectLike, typeofObject, ctorOf]
  · decide

/-! ## The ancestor-list leak -/

/-- **C10.** On a cycle error, the entries `baseFreeze` pushed onto the
module-global ancestor list are never popped (the final list extends the
initial one); consequently, after `freeze` throws on the one-object cycle
`x = {a: x}` the list retains `x`, and a second `freeze(x)` — after the
cycle has been broken by removing the field, so that a clean-state freeze
succeeds — still raises the cycle error from the stale list. -/
theorem prevNodes_leak :
    (∀ (fuel : Nat) (st : St) (coll : JSVal) (st2 : St),
      baseFreeze fuel st coll = (st2, some .cycle) →
      ∃ t, st2.prev = st.prev ++ t) ∧
    (freeze false ⟨[⟨false, Ctor.object, Proto.objectProto,
        [("a", JSVal.ref 0)], false⟩], []⟩ (.ref 0)).1.prev = [JSVal.ref 0] ∧
    (freeze false ⟨[⟨false, Ctor.object, Proto.objectProto, [], false⟩],
        [JSVal.ref 0]⟩ (.ref 0)).2 = some .cycle ∧
    (freeze false ⟨[⟨false, Ctor.object, Proto.objectProto, [], false⟩],
        []⟩ (.ref 0)).2 = none := by
  refine ⟨?_, by decide, by decide, by decide⟩
  intro fuel st coll st2 hbf
  exact baseFreeze_prev_ext fuel st coll st2 .cycle hbf

/-- Witness for C10's general conjunct at the concrete leaking call. -/
theorem prevNodes_leak_witness :
    ∃ t, ([JSVal.ref 0] : List JSVal) = ([] : List JSVal) ++ t :=
  prevNodes_leak.1 3
    ⟨[⟨false, Ctor.object, Proto.objectProto, [("a", JSVal.ref 0)], false⟩], []⟩
    (.ref 0)
    ⟨[⟨false, Ctor.object, Proto.objectProto, [("a", JSVal.ref 0)], false⟩],
      [JSVal.ref 0]⟩
    (by decide)

/-! ## assocIn lemmas -/

lemma assocInF_zero (prod : Bool) (st : St) (coll : JSVal) (path : List String)
    (v : JSVal) : assocInF prod 0 st coll path v = (st, .error .fuelOut) := rfl

lemma assocInF_succ (prod : Bool) (fuel : Nat) (st : St) (coll : JSVal)
    (path : List String) (v : JSVal) :
    assocInF prod (fuel + 1) st coll path v =
      if path.length = 1 then assoc prod st coll (path.headD "undefined") v
      else
        match assocInF prod fuel
            (if truthy (getProp st.heap coll (path.headD "undefined")) then st
             else { st with heap := st.heap ++
               [⟨false, Ctor.object, Proto.objectProto, [], false⟩] })
            (if truthy (getProp st.heap coll (path.headD "undefined")) then
               getProp st.heap coll (path.headD "undefined")
             else .ref st.heap.length)
            path.tail v with
        | (st2, .error e) => (st2, .error e)
        | (st2, .ok r) => assoc prod st2 coll (path.headD "undefined") r := rfl

lemma assocInF_prev_of_ok : ∀ (fuel : Nat) (prod : Bool) (st : St) (coll : JSVal)
    (path : List String) (v : JSVal) (st2 : St) (x : JSVal),
    assocInF prod fuel st coll path v = (st2, .ok x) → st2.prev = st.prev := by
  intro fuel
  induction fuel with
  | zero =>
    intro prod st coll path v st2 x h
    rw [assocInF_zero] at h
    simp at h
  | succ n ih =>
    intro prod st coll path v st2 x h
    rw [assocInF_succ] at h
    by_cases hlen : path.length = 1
    · rw [if_pos hlen] at h
      exact (assoc_ok_spec h).2.1
    · rw [if_neg hlen] at h
      by_cases ht : truthy (getProp st.heap coll (path.headD "undefined")) = true
      · rw [if_pos ht, if_pos ht] at h
        rcases hin : assocInF prod n st
            (getProp st.heap coll (path.headD "undefined")) path.tail v with ⟨st3, r⟩
        rw [hin] at h
        cases r with
        | error e => simp at h
        | ok y =>
          simp only at h
          exact (assoc_ok_spec h).2.1.trans (ih _ _ _ _ _ _ _ hin)
      · rw [if_neg ht, if_neg ht] at h
        rcases hin : assocInF prod n
            { st with heap := st.heap ++
              [⟨false, Ctor.object, Proto.objectProto, [], false⟩] }
            (.ref st.heap.length) path.tail v with ⟨st3, r⟩
        rw [hin] at h
        cases r with
        | error e => simp at h
        | ok y =>
          simp only at h
          exact ((assoc_ok_spec h).2.1.trans (ih _ _ _ _ _ _ _ hin) :)

/-- **C9.** assocIn terminates exactly on non-empty paths: fuel at least the
path length is never exhausted on a non-empty path (each recursive call
strictly shortens the path); on the empty path every amount of fuel is
exhausted (the recursion re-invokes itself with an unchanged empty path),
and hence `updateIn` with an empty path diverges too. -/
theorem assocIn_termination :
    (∀ (prod : Bool) (path : List String) (fuel : Nat) (st : St) (coll v : JSVal),
      path ≠ [] → path.length ≤ fuel → st.prev = [] →
      (assocInF prod fuel st coll path v).2 ≠ .error .fuelOut) ∧
    (∀ (prod : Bool) (fuel : Nat) (st : St) (coll v : JSVal),
      (assocInF prod fuel st coll [] v).2 = .error .fuelOut) ∧
    (∀ (prod : Bool) (fuel : Nat) (st : St) (coll : JSVal) (cb : JSVal → JSVal),
      (updateInF prod fuel st coll [] cb).2 = .error .fuelOut) := by
  have part2 : ∀ (prod : Bool) (fuel : Nat) (st : St) (coll v : JSVal),
      (assocInF prod fuel st coll [] v).2 = .error .fuelOut := by
    intro prod fuel
    induction fuel with
    | zero => intro st coll v; rfl
    | succ n ih =>
      intro st coll v
      rw [assocInF_succ]
      rw [if_neg (by simp)]
      by_cases ht : truthy (getProp st.heap coll (List.headD [] "undefined")) = true
      · rw [if_pos ht, if_pos ht]
        simp only [List.tail_nil]
        rcases hin : assocInF prod n st
            (getProp st.heap coll (List.headD [] "undefined")) [] v with ⟨st3, r⟩
        have := ih st (getProp st.heap coll (List.headD [] "undefined")) v
        rw [hin] at this
        simp only at this
        subst this
        simp [List.tail_nil, hin]
      · rw [if_neg ht, if_neg ht]
        simp only [List.tail_nil]
        rcases hin : assocInF prod n
            { st with heap := st.heap ++
              [⟨false, Ctor.object, Proto.objectProto, [], false⟩] }
            (.ref st.heap.length) [] v with ⟨st3, r⟩
        have := ih { st with heap := st.heap ++
              [⟨false, Ctor.object, Proto.objectProto, [], false⟩] }
            (.ref st.heap.length) v
        rw [hin] at this
        simp only at this
        subst this
        simp [List.tail_nil, hin]
  refine ⟨?_, part2, ?_⟩
  · intro prod path
    induction path with
    | nil => intro fuel st coll v hne; exact absurd rfl hne
    | cons k1 rest ih =>
      intro fuel st coll v _ hfuel hprev
      cases fuel with
      | zero => simp at hfuel
      | succ n =>
        rw [assocInF_succ]
        cases rest with
        | nil =>
          rw [if_pos (by simp)]
          rcases ha : assoc prod st coll ((k1 :: ([] : List String)).headD "undefined") v
            with ⟨st2, r⟩
          cases r with
          | ok x => simp
          | error e =>
            have := (assoc_err_spec ha).2.2 hprev
            simp only
            intro hcon
            injection hcon with hcon
            exact this hcon
        | cons k2 rest2 =>
          rw [if_neg (by simp)]
          simp only [List.headD_cons, List.tail_cons]
          have hne2 : (k2 :: rest2) ≠ [] := by simp
          have hlen2 : (k2 :: rest2).length ≤ n := by
            simp at hfuel ⊢
            omega
          by_cases ht : truthy (getProp st.heap coll k1) = true
          · rw [if_pos ht, if_pos ht]
            rcases hin : assocInF prod n st (getProp st.heap coll k1)
                (k2 :: rest2) v with ⟨st3, r⟩
            cases r with
            | error e =>
              have := ih n st (getProp st.heap coll k1) v hne2 hlen2 hprev
              rw [hin] at this
              simp only [hin] at this ⊢
              intro hcon
              injection hcon with hcon
              subst hcon
              exact this rfl
            | ok y =>
              have hprev3 : st3.prev = st.prev := by
                have hp := assocInF_prev_of_ok _ _ _ _ _ _ _ _ hin
                exact hp
              simp only [hin]
              rcases ha : assoc prod st3 coll k1 y with ⟨st4, r2⟩
              cases r2 with
              | ok x => simp [ha]
              | error e =>
                have := (assoc_err_spec ha).2.2 (hprev3.trans hprev)
                simp only [ha]
                intro hcon
                injection hcon with hcon
                exact this hcon
          · rw [if_neg ht, if_neg ht]
            rcases hin : assocInF prod n
                { st with heap := st.heap ++
                  [⟨false, Ctor.object, Proto.objectProto, [], false⟩] }
                (.ref st.heap.length) (k2 :: rest2) v with ⟨st3, r⟩
            cases r with
            | error e =>
              have := ih n { st with heap := st.heap ++
                  [⟨false, Ctor.object, Proto.objectProto, [], false⟩] }
                (.ref st.heap.length) v hne2 hlen2 hprev
              rw [hin] at this
              simp only [hin] at this ⊢
              intro hcon
              injection hcon with hcon
              subst hcon
              exact this rfl
            | ok y =>
              have hprev3 : st3.prev = st.prev := by
                have hp := assocInF_prev_of_ok _ _ _ _ _ _ _ _ hin
                exact hp
              simp only [hin]
              rcases ha : assoc prod st3 coll k1 y with ⟨st4, r2⟩
              cases r2 with
              | ok x => simp [ha]
              | error e =>
                have := (assoc_err_spec ha).2.2 (hprev3.trans hprev)
                simp only [ha]
                intro hcon
                injection hcon with hcon
                exact this hcon
  · intro prod fuel st coll cb
    unfold updateInF
    exact part2 prod fuel st coll (cb (baseGet st.heap coll []))

/-- Witness for C9: the non-empty-path conjunct at a concrete call, and the
empty-path divergence at fuel 5. -/
theorem assocIn_termination_witness :
    (assocInF false 1 ⟨[⟨false, Ctor.object, Proto.objectProto, [], false⟩], []⟩
      (.ref 0) ["a"] (.numV 1)).2 ≠ .error .fuelOut ∧
    (assocInF false 5 ⟨[⟨false, Ctor.object, Proto.objectProto, [], false⟩], []⟩
      (.ref 0) [] (.numV 1)).2 = .error .fuelOut := by
  constructor
  · exact assocIn_termination.1 false ["a"] 1
      ⟨[⟨false, Ctor.object, Proto.objectProto, [], false⟩], []⟩ (.ref 0) (.numV 1)
      (by simp) (by simp) rfl
  · exact assocIn_termination.2.1 false 5
      ⟨[⟨false, Ctor.object, Proto.objectProto, [], false⟩], []⟩ (.ref 0) (.numV 1)

/-! ## Closedness preservation and baseGet stability -/

lemma heapClosed_append_one {h : Heap} {o : HeapObj} (hc : heapClosed h = true)
    (ho : ∀ kv ∈ o.fields, valIn h.length kv.2 = true) :
    heapClosed (h ++ [o]) = true := by
  unfold heapClosed at hc ⊢
  rw [List.all_eq_true] at hc ⊢
  intro o2 ho2
  rw [List.all_eq_true]
  intro kv hkv
  rcases List.mem_append.mp ho2 with hm | hm
  · have := hc o2 hm
    rw [List.all_eq_true] at this
    exact valIn_mono (by simp) (this kv hkv)
  · rw [List.mem_singleton] at hm
    subst hm
    exact valIn_mono (by simp) (ho kv hkv)

lemma heapClosed_set {h : Heap} {a : Nat} {o : HeapObj} (hc : heapClosed h = true)
    (ho : ∀ kv ∈ o.fields, valIn h.length kv.2 = true) :
    heapClosed (h.set a o) = true := by
  unfold heapClosed at hc ⊢
  rw [List.all_eq_true] at hc ⊢
  intro o2 ho2
  rw [List.all_eq_true]
  intro kv hkv
  rw [List.length_set]
  rcases List.mem_or_eq_of_mem_set ho2 with hm | hm
  · have := hc o2 hm
    rw [List.all_eq_true] at this
    exact this kv hkv
  · subst hm
    exact ho kv hkv

/-- A successful `assoc` preserves heap closedness and returns a valid
reference. -/
lemma assoc_ok_closed {prod : Bool} {st : St} {coll : JSVal} {k : String}
    {v : JSVal} {st2 : St} {x : JSVal}
    (hc : heapClosed st.heap = true) (hcoll : valIn st.heap.length coll = true)
    (hv : valIn st.heap.length v = true)
    (h : assoc prod st coll k v = (st2, .ok x)) :
    heapClosed st2.heap = true ∧ valIn st2.heap.length x = true := by
  unfold assoc at h
  by_cases he : getProp st.heap coll k = v
  · rw [if_pos he] at h
    injection h with h1 h2
    injection h2 with h2
    subst h1
    subst h2
    have hfe := shallowFreeze_FEq prod st coll
    constructor
    · rw [FEq_heapClosed hfe]
      exact hc
    · rw [FEq_length hfe]
      exact hcoll
  · rw [if_neg he] at h
    obtain ⟨o, hcl, hof, hfr⟩ := cloneVal_spec st coll
    simp only [hcl] at h
    rcases hf : freezeIfNeeded prod { st with heap := st.heap ++ [o] } v with ⟨stf, e⟩
    simp only [hf] at h
    cases e with
    | some e => simp at h
    | none =>
      have hfe2 : FEq (st.heap ++ [o]) stf.heap := by
        have := freezeIfNeeded_FEq prod { st with heap := st.heap ++ [o] } v
        rw [hf] at this
        exact this
      have hc1 : heapClosed (st.heap ++ [o]) = true := by
        refine heapClosed_append_one hc ?_
        rw [hof]
        exact ownFields_closed hc hcoll
      have hcf : heapClosed stf.heap = true := by
        rw [FEq_heapClosed hfe2]
        exact hc1
      have hlenf : stf.heap.length = st.heap.length + 1 := by
        have := FEq_length hfe2
        simpa using this
      have hg : (st.heap ++ [o])[st.heap.length]? = some o := by
        rw [List.getElem?_append_right (Nat.le_refl _)]
        simp
      obtain ⟨o2, ho2, hfl, _, _, _⟩ := heapAgree_some (FEq_get hfe2 st.heap.length) hg
      simp only [setProp, ho2] at h
      injection h with h1 h2
      injection h2 with h2
      subst h1
      subst h2
      have hofields : ∀ kv ∈ fSet o2.fields k v, valIn stf.heap.length kv.2 = true := by
        refine fSet_all ?_ ?_
        · intro kv hkv
          rw [hfl, hof] at hkv
          exact valIn_mono (by omega) (ownFields_closed hc hcoll kv hkv)
        · exact valIn_mono (by omega) hv
      have hcset : heapClosed (stf.heap.set st.heap.length
          ({ o2 with fields := fSet o2.fields k v })) = true :=
        heapClosed_set hcf hofields
      have hfeS := shallowFreeze_FEq prod
        { stf with heap := (stf.heap.set st.heap.length
            ({ o2 with fields := fSet o2.fields k v })) } (.ref st.heap.length)
      constructor
      · rw [FEq_heapClosed hfeS]
        exact hcset
      · rw [FEq_length hfeS]
        simp [valIn, List.length_set]
        omega

/-- `baseGet` walks only pre-existing objects, so heap extension up to
frozen flags does not change it. -/
lemma baseGet_HExt {h h2 : Heap} (e : HExt h h2) (hc : heapClosed h = true) :
    ∀ (path : List String) (v : JSVal), valIn h.length v = true →
      baseGet h2 v path = baseGet h v path := by
  intro path
  induction path with
  | nil => intro v _; rfl
  | cons k rest ih =>
    intro v hv
    show baseGet h2 (if truthy v then getProp h2 v k else .undefined) rest =
      baseGet h (if truthy v then getProp h v k else .undefined) rest
    by_cases ht : truthy v = true
    · rw [if_pos ht, if_pos ht, getProp_agree (agree_of_HExt e hv)]
      exact ih _ (getProp_closed hc hv k)
    · rw [if_neg ht, if_neg ht]
      exact ih .undefined rfl

lemma baseGet_cons (h : Heap) (v : JSVal) (k : String) (rest : List String) :
    baseGet h v (k :: rest) =
      baseGet h (if truthy v then getProp h v k else .undefined) rest := rfl

/-- Round-trip invariant for `assocInF` along a non-empty path: a successful
call stores `v` so that `baseGet` finds it, and preserves closedness,
extension, validity, and truthiness of the result. -/
lemma assocInF_roundtrip : ∀ (path : List String) (prod : Bool) (fuel : Nat)
    (st : St) (coll v : JSVal) (st2 : St) (r : JSVal),
    heapClosed st.heap = true → valIn st.heap.length coll = true →
    valIn st.heap.length v = true → truthy coll = true → path ≠ [] →
    assocInF prod fuel st coll path v = (st2, .ok r) →
    baseGet st2.heap r path = v ∧ heapClosed st2.heap = true ∧
      HExt st.heap st2.heap ∧ valIn st2.heap.length r = true ∧
      truthy r = true := by
  intro path
  induction path with
  | nil => intro prod fuel st coll v st2 r _ _ _ _ hne; exact absurd rfl hne
  | cons k1 rest ih =>
    intro prod fuel st coll v st2 r hc hcoll hv ht _ h
    cases fuel with
    | zero => rw [assocInF_zero] at h; simp at h
    | succ n =>
      rw [assocInF_succ] at h
      cases rest with
      | nil =>
        rw [if_pos (by simp)] at h
        simp only [List.headD_cons] at h
        obtain ⟨hext, _, hget, hcase⟩ := assoc_ok_spec h
        obtain ⟨hc2, hval2⟩ := assoc_ok_closed hc hcoll hv h
        have htr : truthy r = true := by
          rcases hcase with ⟨hr, _, _⟩ | ⟨hr, _⟩
          · rw [hr]; exact ht
          · rw [hr]; rfl
        refine ⟨?_, hc2, hext, hval2, htr⟩
        rw [baseGet_cons, if_pos htr]
        exact hget
      | cons k2 rest2 =>
        rw [if_neg (by simp)] at h
        simp only [List.headD_cons, List.tail_cons] at h
        by_cases htin : truthy (getProp st.heap coll k1) = true
        · rw [if_pos htin, if_pos htin] at h
          rcases hin : assocInF prod n st (getProp st.heap coll k1)
              (k2 :: rest2) v with ⟨st3, y0⟩
          rw [hin] at h
          cases y0 with
          | error e => simp at h
          | ok y =>
            simp only at h
            obtain ⟨hb3, hc3, hext3, hval3, htr3⟩ :=
              ih prod n st (getProp st.heap coll k1) v st3 y hc
                (getProp_closed hc hcoll k1) hv htin (by simp) hin
            have hcoll3 : valIn st3.heap.length coll = true :=
              valIn_mono (HExt_length_le hext3) hcoll
            obtain ⟨hext2, _, hget2, hcase2⟩ := assoc_ok_spec h
            obtain ⟨hc2, hval2⟩ := assoc_ok_closed hc3 hcoll3 hval3 h
            have htr2 : truthy r = true := by
              rcases hcase2 with ⟨hr, _, _⟩ | ⟨hr, _⟩
              · rw [hr]; exact ht
              · rw [hr]; rfl
            refine ⟨?_, hc2, HExt_trans hext3 hext2, hval2, htr2⟩
            rw [baseGet_cons, if_pos htr2, hget2]
            rw [baseGet_HExt hext2 hc3 _ _ hval3]
            exact hb3
        · rw [if_neg htin, if_neg htin] at h
          rcases hin : assocInF prod n
              { st with heap := st.heap ++
                [⟨false, Ctor.object, Proto.objectProto, [], false⟩] }
              (.ref st.heap.length) (k2 :: rest2) v with ⟨st3, y0⟩
          rw [hin] at h
          cases y0 with
          | error e => simp at h
          | ok y =>
            simp only at h
            have hca : heapClosed (st.heap ++
                [⟨false, Ctor.object, Proto.objectProto, [], false⟩]) = true := by
              refine heapClosed_append_one hc ?_
              intro kv hkv
              simp at hkv
            have hvala : valIn (st.heap ++
                [(⟨false, Ctor.object, Proto.objectProto, [], false⟩ : HeapObj)]).length
                (JSVal.ref st.heap.length) = true := by
              simp [valIn]
            obtain ⟨hb3, hc3, hext3, hval3, htr3⟩ :=
              ih prod n _ (JSVal.ref st.heap.length) v st3 y hca hvala
                (valIn_mono (by simp) hv) rfl (by simp) hin
            have hexta : HExt st.heap (st.heap ++
                [⟨false, Ctor.object, Proto.objectProto, [], false⟩]) :=
              ⟨[stripF ⟨false, Ctor.object, Proto.objectProto, [], false⟩], by simp⟩
            have hext3a : HExt st.heap st3.heap := HExt_trans hexta hext3
            have hcoll3 : valIn st3.heap.length coll = true :=
              valIn_mono (HExt_length_le hext3a) hcoll
            obtain ⟨hext2, _, hget2, hcase2⟩ := assoc_ok_spec h
            obtain ⟨hc2, hval2⟩ := assoc_ok_closed hc3 hcoll3 hval3 h
            have htr2 : truthy r = true := by
              rcases hcase2 with ⟨hr, _, _⟩ | ⟨hr, _⟩
              · rw [hr]; exact ht
              · rw [hr]; rfl
            refine ⟨?_, hc2, HExt_trans hext3a hext2, hval2, htr2⟩
            rw [baseGet_cons, if_pos htr2, hget2]
            rw [baseGet_HExt hext2 hc3 _ _ hval3]
            exact hb3

/-- The concrete structure used for the C5 counterexample and witness. -/
def heapOneEmpty : Heap := [⟨false, Ctor.object, Proto.objectProto, [], false⟩]

/-- **C5 counterexample.** At the empty path the claimed round-trip equation
has no value at all: `assocIn({}, [], 1)` never returns (the recursive case
re-invokes itself with the same empty path; the canonical fuel — like every
fuel, by the termination analysis — is exhausted), so
`getIn(assocIn(coll, path, v), path) === v` fails for `path = []`. -/
theorem assocIn_getIn_empty_path_cex :
    (assocIn false ⟨heapOneEmpty, []⟩ (.ref 0) [] (.numV 1)).2 =
      .error .fuelOut := by
  decide

/-- **C5 amended.** For every collection (any truthy value) in a closed
heap, every *non-empty* path, and every value, if `assocIn` returns (its
only failure mode being the cycle error raised while freezing the value),
then `getIn` along the same path on the result yields exactly the stored
value, missing intermediates included. -/
theorem getIn_assocIn_roundtrip (prod : Bool) (st : St) (coll v : JSVal)
    (path : List String) (st2 : St) (r : JSVal)
    (hc : heapClosed st.heap = true) (hcoll : valIn st.heap.length coll = true)
    (hv : valIn st.heap.length v = true) (ht : truthy coll = true)
    (hne : path ≠ []) (h : assocIn prod st coll path v = (st2, .ok r)) :
    baseGet st2.heap r path = v :=
  (assocInF_roundtrip path prod (path.length + 1) st coll v st2 r
    hc hcoll hv ht hne h).1

/-- Witness for C5 (amended) at `getIn(assocIn({}, ["a","b"], 7), ["a","b"])`,
a path through a non-existent intermediate. -/
theorem getIn_assocIn_roundtrip_witness :
    baseGet [⟨false, Ctor.object, Proto.objectProto, [], false⟩,
      ⟨false, Ctor.object, Proto.objectProto, [], false⟩,
      ⟨false, Ctor.object, Proto.objectProto, [("b", JSVal.numV 7)], true⟩,
      ⟨false, Ctor.object, Proto.objectProto, [("a", JSVal.ref 2)], true⟩]
      (.ref 3) ["a", "b"] = .numV 7 :=
  getIn_assocIn_roundtrip false ⟨heapOneEmpty, []⟩ (.ref 0) (.numV 7) ["a", "b"]
    ⟨[⟨false, Ctor.object, Proto.objectProto, [], false⟩,
      ⟨false, Ctor.object, Proto.objectProto, [], false⟩,
      ⟨false, Ctor.object, Proto.objectProto, [("b", JSVal.numV 7)], true⟩,
      ⟨false, Ctor.object, Proto.objectProto, [("a", JSVal.ref 2)], true⟩], []⟩
    (.ref 3) (by decide) (by decide) (by decide) (by decide) (by decide)
    (by decide)

/-! ## dissocIn lemmas -/

lemma dissocInF_succ (prod : Bool) (fuel : Nat) (st : St) (coll : JSVal)
    (path : List String) :
    dissocInF prod (fuel + 1) st coll path =
      if !(hasOwnCallable st.heap coll) then (st, .error .typeError)
      else
        if !(ownsB st.heap coll (path.headD "undefined")) then (st, .ok coll)
        else if path.length = 1 then dissoc prod st coll (path.headD "undefined")
        else
          match dissocInF prod fuel st
              (getProp st.heap coll (path.headD "undefined")) path.tail with
          | (st2, .error e) => (st2, .error e)
          | (st2, .ok r) => assoc prod st2 coll (path.headD "undefined") r := rfl

/-- Own-property presence along a whole path: each key in turn is an own
property of the value reached so far (the "path prefix present" premise). -/
def chainOwns (h : Heap) : JSVal → List String → Bool
  | _, [] => true
  | v, k :: ks => ownsB h v k && chainOwns h (getProp h v k) ks

/-- Every value `dissocIn`'s recursion actually visits has a callable
`hasOwnProperty`: none is null/undefined and none is a null-prototype
object (on either of which the call raises a TypeError). -/
def dissocInSafe (h : Heap) : JSVal → List String → Bool
  | v, [] => hasOwnCallable h v
  | v, k :: ks =>
    hasOwnCallable h v &&
      (!(ownsB h v k) || ks.isEmpty || dissocInSafe h (getProp h v k) ks)

/-- The missing-prefix no-op, fueled and bundled with shape preservation:
if some prefix of the path is not own-present and every visited value has a
callable `hasOwnProperty`, `dissocIn` returns the original reference and at
most flips frozen flags. -/
lemma dissocInF_noop : ∀ (path : List String) (prod : Bool) (fuel : Nat)
    (st : St) (coll : JSVal), path.length < fuel →
    dissocInSafe st.heap coll path = true →
    chainOwns st.heap coll path = false →
    ∃ st2, dissocInF prod fuel st coll path = (st2, .ok coll) ∧
      FEq st.heap st2.heap := by
  intro path
  induction path with
  | nil =>
    intro prod fuel st coll _ _ hmiss
    rw [chainOwns] at hmiss
    exact absurd hmiss (by simp)
  | cons k ks ih =>
    intro prod fuel st coll hfuel hsafe hmiss
    cases fuel with
    | zero => simp at hfuel
    | succ n =>
      rw [dissocInF_succ]
      rw [dissocInSafe] at hsafe
      rw [Bool.and_eq_true] at hsafe
      obtain ⟨hnn, hsafe2⟩ := hsafe
      rw [if_neg (by rw [hnn]; simp)]
      simp only [List.headD_cons, List.tail_cons]
      rw [chainOwns] at hmiss
      by_cases hown : ownsB st.heap coll k = true
      · rw [hown] at hmiss
        rw [Bool.true_and] at hmiss
        have hks : ks ≠ [] := by
          intro hcon
          subst hcon
          rw [chainOwns] at hmiss
          simp at hmiss
        rw [if_neg (by rw [hown]; simp)]
        rw [if_neg (by simpa using hks)]
        have hsafe3 : dissocInSafe st.heap (getProp st.heap coll k) ks = true := by
          rw [Bool.or_eq_true, Bool.or_eq_true] at hsafe2
          rcases hsafe2 with (hcon | hcon) | hok
          · rw [hown] at hcon; simp at hcon
          · rw [List.isEmpty_iff] at hcon; exact absurd hcon hks
          · exact hok
        obtain ⟨st3, hrec, hfe3⟩ := ih prod n st (getProp st.heap coll k)
          (by simp at hfuel ⊢; omega) hsafe3 hmiss
        simp only [hrec]
        unfold assoc
        rw [if_pos (by rw [getProp_agree (agree_of_FEq hfe3 _)])]
        refine ⟨_, rfl, ?_⟩
        exact FEq_trans hfe3 (shallowFreeze_FEq prod st3 coll)
      · rw [if_pos (by simp [hown])]
        exact ⟨st, rfl, FEq_refl _⟩

/-- The first concrete structure refuting C8: `{a: null}` with path
`["a","b"]`. -/
def heapC8 : Heap := [⟨false, Ctor.object, Proto.objectProto,
  [("a", JSVal.jsnull)], false⟩]

/-- The second concrete structure refuting C8: an empty
`Object.create(null)` collection (no constructor, null prototype, hence no
inherited `hasOwnProperty`). -/
def heapC8b : Heap := [⟨false, Ctor.absent, Proto.nullProto, [], false⟩]

/-- **C8 counterexample.** Two inputs with a missing path prefix on which
`dissocIn` does not return `coll`: for `coll = {a: null}` and
`path = ["a","b"]` the recursion calls `hasOwnProperty` on the null
intermediate; for `coll = Object.create(null)` — a collection of interest —
and `path = ["a"]` the receiver itself has no `hasOwnProperty` method.
Both raise a TypeError instead of performing the claimed no-op. -/
theorem dissocIn_null_prefix_cex :
    (chainOwns heapC8 (.ref 0) ["a", "b"] = false ∧
      (dissocIn false ⟨heapC8, []⟩ (.ref 0) ["a", "b"]).2 = .error .typeError ∧
      dissocInSafe heapC8 (.ref 0) ["a", "b"] = false) ∧
    (chainOwns heapC8b (.ref 0) ["a"] = false ∧
      weCareAbout heapC8b (.ref 0) = true ∧
      (dissocIn false ⟨heapC8b, []⟩ (.ref 0) ["a"]).2 = .error .typeError ∧
      dissocInSafe heapC8b (.ref 0) ["a"] = false) := by
  decide

/-- **C8 amended.** If some prefix of the path is not present as an own
property and every value visited by the recursion has a callable
`hasOwnProperty` (none is null/undefined and none is a null-prototype
object), then `dissocIn(coll, path)` returns the original reference `coll`
unchanged (no missing intermediates are synthesized; at most frozen flags
are set); when the traversal meets a null/undefined or null-prototype
value it instead raises a TypeError (per the counterexample). -/
theorem dissocIn_missing_prefix_noop (prod : Bool) (st : St) (coll : JSVal)
    (path : List String) (hsafe : dissocInSafe st.heap coll path = true)
    (hmiss : chainOwns st.heap coll path = false) :
    (dissocIn prod st coll path).2 = .ok coll := by
  obtain ⟨st2, heq, -⟩ :=
    dissocInF_noop path prod (path.length + 1) st coll (by omega) hsafe hmiss
  rw [dissocIn, heq]

/-- Witness for C8 (amended) at `dissocIn({a: {}}, ["a","b"])`: the prefix
`["a","b"]` is absent, every visited value is a plain object with a
callable `hasOwnProperty`, and the original reference is returned. -/
theorem dissocIn_missing_prefix_noop_witness :
    (dissocIn false ⟨[⟨false, Ctor.object, Proto.objectProto,
        [("a", JSVal.ref 1)], false⟩,
      ⟨false, Ctor.object, Proto.objectProto, [], false⟩], []⟩
      (.ref 0) ["a", "b"]).2 = .ok (.ref 0) :=
  dissocIn_missing_prefix_noop false
    ⟨[⟨false, Ctor.object, Proto.objectProto, [("a", JSVal.ref 1)], false⟩,
      ⟨false, Ctor.object, Proto.objectProto, [], false⟩], []⟩
    (.ref 0) ["a", "b"] (by decide) (by decide)

/-! ## Merge: heap extension, step analysis, and the fold invariant -/

lemma resolveVal_none (targetVal sourceVal : JSVal) (k : String) :
    resolveVal none targetVal sourceVal k = sourceVal := rfl

lemma assocIfDifferent_HExt (prod : Bool) (st : St) (target : JSVal)
    (key : String) (value : JSVal) :
    HExt st.heap (assocIfDifferent prod st target key value).1.heap := by
  unfold assocIfDifferent
  by_cases he : getProp st.heap target key = value
  · rw [if_pos he]; exact HExt_refl _
  · rw [if_neg he]; exact assoc_HExt _ _ _ _ _

lemma mergeStepGo_HExt (prod : Bool) (res : Option Resolver)
    (mg : St → JSVal → JSVal → St × Except Err JSVal)
    (mgH : ∀ st t s, HExt st.heap (mg st t s).1.heap)
    (st : St) (obj source : JSVal) (k : String) :
    HExt st.heap (mergeStepGo prod res mg st obj source k).1.heap := by
  unfold mergeStepGo
  by_cases h1 : (weCareAbout st.heap (getProp st.heap source k) &&
      weCareAbout st.heap (getProp st.heap obj k)) = true
  · rw [if_pos h1]
    by_cases h2 : (decide (resolveVal res (getProp st.heap obj k)
          (getProp st.heap source k) k = getProp st.heap obj k) &&
        (prod || (isFrozenV st.heap (resolveVal res (getProp st.heap obj k)
            (getProp st.heap source k) k) &&
          isFrozenV st.heap (getProp st.heap obj k)))) = true
    · rw [if_pos h2]; exact HExt_refl _
    · rw [if_neg h2]
      by_cases h3 : isArrayV st.heap (getProp st.heap source k) = true
      · rw [if_pos h3]; exact assoc_HExt _ _ _ _ _
      · rw [if_neg h3]
        rcases hm : mg st (getProp st.heap obj k)
            (resolveVal res (getProp st.heap obj k) (getProp st.heap source k) k)
          with ⟨st1, r⟩
        have hmh := mgH st (getProp st.heap obj k)
          (resolveVal res (getProp st.heap obj k) (getProp st.heap source k) k)
        rw [hm] at hmh
        cases r with
        | error e => simp only [hm]; exact hmh
        | ok m =>
          simp only [hm]
          exact HExt_trans hmh (assocIfDifferent_HExt _ _ _ _ _)
  · rw [if_neg h1]
    exact assocIfDifferent_HExt _ _ _ _ _

lemma mergeListGo_HExt (mstep : St → JSVal → JSVal → String → St × Except Err JSVal)
    (mstepH : ∀ st obj source k, HExt st.heap (mstep st obj source k).1.heap) :
    ∀ (ks : List String) (st : St) (obj source : JSVal),
      HExt st.heap (mergeListGo mstep st obj source ks).1.heap := by
  intro ks
  induction ks with
  | nil => intro st obj source; exact HExt_refl _
  | cons k kt ih =>
    intro st obj source
    rcases hs : mstep st obj source k with ⟨st1, r⟩
    have hsh := mstepH st obj source k
    rw [hs] at hsh
    cases r with
    | error e => simp only [mergeListGo, hs]; exact hsh
    | ok obj1 =>
      simp only [mergeListGo, hs]
      exact HExt_trans hsh (ih st1 obj1 source)

/-- The whole `merge` family only ever extends the heap (and flips frozen
flags on existing objects). -/
lemma merge_HExt (prod : Bool) (res : Option Resolver) :
    ∀ (fuel : Nat) (st : St) (target source : JSVal),
      HExt st.heap (merge prod res fuel st target source).1.heap := by
  intro fuel
  induction fuel with
  | zero => intro st t s; exact HExt_refl _
  | succ fuel ih =>
    intro st t s
    unfold merge
    by_cases hn : (isNullish t || isNullish s) = true
    · rw [if_pos hn]; exact HExt_refl _
    · rw [if_neg hn]
      exact mergeListGo_HExt _
        (fun st2 obj source2 k => mergeStepGo_HExt prod res _ ih st2 obj source2 k)
        _ st t s

/-- A successful `assoc` seen from the accumulator side: the result is again
a valid reference, it holds the assigned value at the key, and every other
key reads as before. -/
lemma assoc_acc_spec {prod : Bool} {st : St} {obj : JSVal} {k : String}
    {v : JSVal} {st1 : St} {obj1 : JSVal}
    (hobjv : valIn st.heap.length obj = true) (hobjr : ∃ a, obj = JSVal.ref a)
    (h : assoc prod st obj k v = (st1, .ok obj1)) :
    HExt st.heap st1.heap ∧ (∃ a, obj1 = JSVal.ref a) ∧
      valIn st1.heap.length obj1 = true ∧ getProp st1.heap obj1 k = v ∧
      (∀ k2, k2 ≠ k → getProp st1.heap obj1 k2 = getProp st.heap obj k2) := by
  obtain ⟨hx, _, hget, hcase⟩ := assoc_ok_spec h
  obtain ⟨a, ha⟩ := hobjr
  rcases hcase with ⟨h1, _, hfe⟩ | ⟨h1, hlt, hother⟩
  · subst h1
    refine ⟨hx, ⟨a, ha⟩, ?_, hget, ?_⟩
    · rw [FEq_length hfe]; exact hobjv
    · intro k2 _; exact getProp_agree (agree_of_FEq hfe _) k2
  · subst h1
    refine ⟨hx, ⟨st.heap.length, rfl⟩, ?_, hget, ?_⟩
    · simp [valIn, hlt]
    · intro k2 hk2
      subst ha
      exact hother a rfl k2 hk2

/-- `assocIfDifferent`, accumulator side: same facts as `assoc_acc_spec`,
the reference-equality short-circuit included. -/
lemma assocIfDifferent_acc_spec {prod : Bool} {st : St} {obj : JSVal}
    {k : String} {v : JSVal} {st1 : St} {obj1 : JSVal}
    (hobjv : valIn st.heap.length obj = true) (hobjr : ∃ a, obj = JSVal.ref a)
    (h : assocIfDifferent prod st obj k v = (st1, .ok obj1)) :
    HExt st.heap st1.heap ∧ (∃ a, obj1 = JSVal.ref a) ∧
      valIn st1.heap.length obj1 = true ∧ getProp st1.heap obj1 k = v ∧
      (∀ k2, k2 ≠ k → getProp st1.heap obj1 k2 = getProp st.heap obj k2) := by
  unfold assocIfDifferent at h
  by_cases he : getProp st.heap obj k = v
  · rw [if_pos he] at h
    injection h with h1 h2
    injection h2 with h2
    subst h1; subst h2
    exact ⟨HExt_refl _, hobjr, hobjv, he, fun k2 _ => rfl⟩
  · rw [if_neg he] at h
    exact assoc_acc_spec hobjv hobjr h

/-- One successful merge step without a resolver, read against a base heap
`h0` that the current state extends: the heap extends further, the
accumulator stays a valid reference, every other key is untouched, and the
value now stored at the key follows the branch taken — the source's value
unless the pair is mapping-vs-mapping, in which case some recursive merge
result is stored. -/
lemma mergeStep_fold_spec {prod : Bool} {fuelI : Nat} {h0 : Heap}
    {source target : JSVal} (hc0 : heapClosed h0 = true)
    (hvs : valIn h0.length source = true) (hvt : valIn h0.length target = true)
    {st : St} {obj : JSVal} {k : String} {st1 : St} {obj1 : JSVal}
    (hext : HExt h0 st.heap) (hobjv : valIn st.heap.length obj = true)
    (hobjr : ∃ a, obj = JSVal.ref a)
    (hinv : getProp st.heap obj k = getProp h0 target k)
    (h : mergeStepGo prod none (merge prod none fuelI) st obj source k
        = (st1, .ok obj1)) :
    HExt st.heap st1.heap ∧ (∃ a, obj1 = JSVal.ref a) ∧
      valIn st1.heap.length obj1 = true ∧
      (∀ k2, k2 ≠ k → getProp st1.heap obj1 k2 = getProp st.heap obj k2) ∧
      (¬(weCareAbout h0 (getProp h0 source k) = true ∧
          weCareAbout h0 (getProp h0 target k) = true) →
        getProp st1.heap obj1 k = getProp h0 source k) ∧
      (weCareAbout h0 (getProp h0 source k) = true →
        weCareAbout h0 (getProp h0 target k) = true →
        isArrayV h0 (getProp h0 source k) = true →
        getProp st1.heap obj1 k = getProp h0 source k) ∧
      (weCareAbout h0 (getProp h0 source k) = true →
        weCareAbout h0 (getProp h0 target k) = true →
        isArrayV h0 (getProp h0 source k) = false →
        getProp h0 source k ≠ getProp h0 target k →
        ∃ stA stB sub, merge prod none fuelI stA (getProp h0 target k)
            (getProp h0 source k) = (stB, .ok sub) ∧
          getProp st1.heap obj1 k = sub) := by
  have hsv : getProp st.heap source k = getProp h0 source k :=
    getProp_agree (agree_of_HExt hext hvs) k
  have hsvv : valIn h0.length (getProp h0 source k) = true :=
    getProp_closed hc0 hvs k
  have htvv : valIn h0.length (getProp h0 target k) = true :=
    getProp_closed hc0 hvt k
  have hcs : weCareAbout st.heap (getProp h0 source k)
      = weCareAbout h0 (getProp h0 source k) :=
    weCareAbout_agree (agree_of_HExt hext hsvv)
  have hct : weCareAbout st.heap (getProp h0 target k)
      = weCareAbout h0 (getProp h0 target k) :=
    weCareAbout_agree (agree_of_HExt hext htvv)
  have has : isArrayV st.heap (getProp h0 source k)
      = isArrayV h0 (getProp h0 source k) :=
    isArrayV_agree (agree_of_HExt hext hsvv)
  unfold mergeStepGo at h
  simp only [resolveVal_none] at h
  rw [hsv, hinv, hcs, hct, has] at h
  by_cases hcare : (weCareAbout h0 (getProp h0 source k) &&
      weCareAbout h0 (getProp h0 target k)) = true
  · rw [if_pos hcare] at h
    have hcare2 := hcare
    rw [Bool.and_eq_true] at hcare2
    by_cases hskip : (decide (getProp h0 source k = getProp h0 target k) &&
        (prod || (isFrozenV st.heap (getProp h0 source k) &&
          isFrozenV st.heap (getProp h0 target k)))) = true
    · rw [if_pos hskip] at h
      injection h with h1 h2
      injection h2 with h2
      subst h1; subst h2
      have heqv : getProp h0 source k = getProp h0 target k := by
        have hskip2 := hskip
        rw [Bool.and_eq_true] at hskip2
        exact of_decide_eq_true hskip2.1
      refine ⟨HExt_refl _, hobjr, hobjv, fun k2 _ => rfl, ?_, ?_, ?_⟩
      · intro hnc; exact absurd ⟨hcare2.1, hcare2.2⟩ hnc
      · intro _ _ _; rw [hinv, heqv]
      · intro _ _ _ hne; exact absurd heqv hne
    · rw [if_neg hskip] at h
      by_cases harr : isArrayV h0 (getProp h0 source k) = true
      · rw [if_pos harr] at h
        obtain ⟨hx, hr, hv, hget, hoth⟩ := assoc_acc_spec hobjv hobjr h
        refine ⟨hx, hr, hv, hoth, ?_, ?_, ?_⟩
        · intro hnc; exact absurd ⟨hcare2.1, hcare2.2⟩ hnc
        · intro _ _ _; exact hget
        · intro _ _ hfa _; exact absurd harr (by simp [hfa])
      · rw [if_neg harr] at h
        rcases hm : merge prod none fuelI st (getProp h0 target k)
            (getProp h0 source k) with ⟨stm, rm⟩
        cases rm with
        | error e => simp only [hm] at h; simp at h
        | ok m =>
          simp only [hm] at h
          have hmx : HExt st.heap stm.heap := by
            have := merge_HExt prod none fuelI st (getProp h0 target k)
              (getProp h0 source k)
            rw [hm] at this
            exact this
          obtain ⟨hx1, hr1, hv1, hget1, hoth1⟩ := assocIfDifferent_acc_spec
            (valIn_mono (HExt_length_le hmx) hobjv) hobjr h
          refine ⟨HExt_trans hmx hx1, hr1, hv1, ?_, ?_, ?_, ?_⟩
          · intro k2 hk2
            rw [hoth1 k2 hk2]
            exact getProp_agree (agree_of_HExt hmx hobjv) k2
          · intro hnc; exact absurd ⟨hcare2.1, hcare2.2⟩ hnc
          · intro _ _ hta; exact absurd hta harr
          · intro _ _ _ _
            exact ⟨st, stm, m, hm, hget1⟩
  · rw [if_neg hcare] at h
    obtain ⟨hx, hr, hv, hget, hoth⟩ := assocIfDifferent_acc_spec hobjv hobjr h
    refine ⟨hx, hr, hv, hoth, ?_, ?_, ?_⟩
    · intro _; exact hget
    · intro h1 h2 _; exact absurd (by simp [h1, h2]) hcare
    · intro h1 h2 _ _; exact absurd (by simp [h1, h2]) hcare

/-- The fold invariant of `merge`'s key reduction without a resolver: on
success the heap only extends, the accumulator ends as a valid reference,
keys outside the folded list read as before, and each folded (distinct) key
holds the value its branch dictates — the source's value when the pair is
not mapping-vs-mapping or when the source side is an array, and some
recursive merge result for mapping-vs-mapping conflicts. -/
lemma mergeList_fold_spec {prod : Bool} {fuelI : Nat} {h0 : Heap}
    {source target : JSVal} (hc0 : heapClosed h0 = true)
    (hvs : valIn h0.length source = true) (hvt : valIn h0.length target = true) :
    ∀ (ks : List String) (st : St) (obj : JSVal) (st2 : St) (r : JSVal),
      HExt h0 st.heap → valIn st.heap.length obj = true →
      (∃ a, obj = JSVal.ref a) →
      (∀ k ∈ ks, getProp st.heap obj k = getProp h0 target k) →
      ks.Nodup →
      mergeListGo (mergeStepGo prod none (merge prod none fuelI)) st obj source ks
        = (st2, .ok r) →
      HExt st.heap st2.heap ∧ (∃ a, r = JSVal.ref a) ∧
        valIn st2.heap.length r = true ∧
        (∀ k2, k2 ∉ ks → getProp st2.heap r k2 = getProp st.heap obj k2) ∧
        (∀ k ∈ ks,
          (¬(weCareAbout h0 (getProp h0 source k) = true ∧
              weCareAbout h0 (getProp h0 target k) = true) →
            getProp st2.heap r k = getProp h0 source k) ∧
          (weCareAbout h0 (getProp h0 source k) = true →
            weCareAbout h0 (getProp h0 target k) = true →
            isArrayV h0 (getProp h0 source k) = true →
            getProp st2.heap r k = getProp h0 source k) ∧
          (weCareAbout h0 (getProp h0 source k) = true →
            weCareAbout h0 (getProp h0 target k) = true →
            isArrayV h0 (getProp h0 source k) = false →
            getProp h0 source k ≠ getProp h0 target k →
            ∃ stA stB sub, merge prod none fuelI stA (getProp h0 target k)
                (getProp h0 source k) = (stB, .ok sub) ∧
              getProp st2.heap r k = sub)) := by
  intro ks
  induction ks with
  | nil =>
    intro st obj st2 r hext hobjv hobjr _ _ hrun
    simp only [mergeListGo] at hrun
    injection hrun with h1 h2
    injection h2 with h2
    subst h1; subst h2
    exact ⟨HExt_refl _, hobjr, hobjv, fun k2 _ => rfl,
      fun k hk => absurd hk (List.not_mem_nil k)⟩
  | cons k kt ih =>
    intro st obj st2 r hext hobjv hobjr hinv3 hnd hrun
    rcases hs : mergeStepGo prod none (merge prod none fuelI) st obj source k
      with ⟨st1, rs⟩
    cases rs with
    | error e =>
      simp only [mergeListGo, hs] at hrun
      simp at hrun
    | ok obj1 =>
      simp only [mergeListGo, hs] at hrun
      obtain ⟨hx1, hr1, hv1, hoth1, hca, hcb, hcc⟩ :=
        mergeStep_fold_spec hc0 hvs hvt hext hobjv hobjr
          (hinv3 k (by simp)) hs
      rw [List.nodup_cons] at hnd
      have hinv3t : ∀ k2 ∈ kt, getProp st1.heap obj1 k2 = getProp h0 target k2 := by
        intro k2 hk2
        rw [hoth1 k2 (by rintro rfl; exact hnd.1 hk2)]
        exact hinv3 k2 (by simp [hk2])
      obtain ⟨hx2, hr2, hv2, hoth2, hkk⟩ := ih st1 obj1 st2 r
        (HExt_trans hext hx1) hv1 hr1 hinv3t hnd.2 hrun
      refine ⟨HExt_trans hx1 hx2, hr2, hv2, ?_, ?_⟩
      · intro k2 hk2
        rw [List.mem_cons] at hk2
        push_neg at hk2
        rw [hoth2 k2 hk2.2, hoth1 k2 hk2.1]
      · intro k2 hk2
        rw [List.mem_cons] at hk2
        by_cases hkt : k2 ∈ kt
        · exact hkk k2 hkt
        · have hk2k : k2 = k := by
            rcases hk2 with h | h
            · exact h
            · exact absurd h hkt
          subst hk2k
          have hpk : getProp st2.heap r k2 = getProp st1.heap obj1 k2 :=
            hoth2 k2 hnd.1
          refine ⟨?_, ?_, ?_⟩
          · intro hnc; rw [hpk]; exact hca hnc
          · intro h1 h2 h3; rw [hpk]; exact hcb h1 h2 h3
          · intro h1 h2 h3 h4
            obtain ⟨stA, stB, sub, hmm, hvv⟩ := hcc h1 h2 h3 h4
            exact ⟨stA, stB, sub, hmm, by rw [hpk]; exact hvv⟩

/-- The concrete structure for the C1 example before freezing:
address 0 is `e = [1]`, 1 is `o1.b = {c:1, e}`, 2 is `o1 = {a:1, b: o1.b}`,
3 is `o2.b = {c:1, e}` (sharing `e`), 4 is `o2 = {a:1, b: o2.b}`. -/
def heapC1 : Heap :=
  [⟨true, Ctor.other, Proto.other, [("0", JSVal.numV 1)], false⟩,
   ⟨false, Ctor.object, Proto.objectProto,
     [("c", JSVal.numV 1), ("e", JSVal.ref 0)], false⟩,
   ⟨false, Ctor.object, Proto.objectProto,
     [("a", JSVal.numV 1), ("b", JSVal.ref 1)], false⟩,
   ⟨false, Ctor.object, Proto.objectProto,
     [("c", JSVal.numV 1), ("e", JSVal.ref 0)], false⟩,
   ⟨false, Ctor.object, Proto.objectProto,
     [("a", JSVal.numV 1), ("b", JSVal.ref 3)], false⟩]

/-- The state after `o1 = freeze(o1); o2 = freeze(o2)` on `heapC1`. -/
def stC1f : St := (freeze false (freeze false ⟨heapC1, []⟩ (.ref 2)).1 (.ref 4)).1

/-- **C1.** Merge identity preservation: with no resolver, when the source's
and the accumulator's values at a key are both collections of interest,
reference-equal, and either freezing is globally disabled or both are
frozen, the key is skipped with no `assoc` at all — the reduction of that
key is the identity on both the accumulator and the whole state; and in the
concrete example, for `o1 = freeze({a:1,b:{c:1,e:[1]}})` and
`o2 = freeze({a:1,b:{c:1,e:o1.b.e}})`, `merge(o1,o2)` returns the very
reference `o1` and `merge(o1,o2).b` is the very reference `o1.b`. -/
theorem merge_identity_preservation :
    (∀ (prod : Bool) (fuelI : Nat) (st : St) (obj source : JSVal) (k : String)
        (ks : List String),
      weCareAbout st.heap (getProp st.heap source k) = true →
      weCareAbout st.heap (getProp st.heap obj k) = true →
      getProp st.heap source k = getProp st.heap obj k →
      (prod = true ∨ (isFrozenV st.heap (getProp st.heap source k) = true ∧
        isFrozenV st.heap (getProp st.heap obj k) = true)) →
      mergeList prod none fuelI st obj source (k :: ks) =
        mergeList prod none fuelI st obj source ks) ∧
    ((merge false none 10 stC1f (.ref 2) (.ref 4)).2 = .ok (.ref 2) ∧
      getProp (merge false none 10 stC1f (.ref 2) (.ref 4)).1.heap
        (.ref 2) "b" = .ref 1) := by
  constructor
  · intro prod fuelI st obj source k ks hs ht heq hfz
    have hstep : mergeStepGo prod none (merge prod none fuelI) st obj source k
        = (st, .ok obj) := by
      unfold mergeStepGo
      simp only [resolveVal_none]
      rw [if_pos (by rw [hs, ht]; rfl), if_pos ?_]
      rcases hfz with hp | ⟨hf1, hf2⟩
      · subst hp; simp [heq]
      · simp [heq, hf1, hf2]
    unfold mergeList
    simp only [mergeListGo, hstep]
  · exact ⟨by decide, by decide⟩

/-- Witness for C1's skip conjunct at the shared `e` entry of the frozen
example: reducing `o2.b`'s key `"e"` over accumulator `o1.b` is skipped
(`o1.b.e` and `o2.b.e` are the same frozen array), so the fold equals the
fold without that key. -/
theorem merge_identity_preservation_witness :
    mergeList false none 5 stC1f (.ref 1) (.ref 3) ["e"] =
      mergeList false none 5 stC1f (.ref 1) (.ref 3) [] :=
  merge_identity_preservation.1 false 5 stC1f (.ref 1) (.ref 3) "e" []
    (by decide) (by decide) (by decide) (Or.inr ⟨by decide, by decide⟩)

/-- The concrete structure for the C6 example: address 0 is `[1,1]`, 1 is
the target `{a:[1,1]}`, 2 is `[2]`, 3 is the source `{a:[2]}`. -/
def heapC6 : Heap :=
  [⟨true, Ctor.other, Proto.other,
     [("0", JSVal.numV 1), ("1", JSVal.numV 1)], false⟩,
   ⟨false, Ctor.object, Proto.objectProto, [("a", JSVal.ref 0)], false⟩,
   ⟨true, Ctor.other, Proto.other, [("0", JSVal.numV 2)], false⟩,
   ⟨false, Ctor.object, Proto.objectProto, [("a", JSVal.ref 2)], false⟩]

/-- **C6.** Merge right-bias and array replacement, no resolver: for every
closed heap, reference target and source with distinct source keys, and
successful `merge(target, source)`, each source key ends up holding the
source's value whenever the pair at that key is not
mapping-vs-mapping (leaf conflicts: source wins) and also whenever the
source's side is a sequence (wholly replacing the target's value,
never element-wise merged); recursion happens only in the remaining
mapping-vs-mapping case, where the stored value is the result of a
recursive merge of the two.  Concretely
`merge({a:[1,1]}, {a:[2]}).a` is (a fresh frozen clone of) the source's
`[2]`: a sequence whose only entry is `2`. -/
theorem merge_right_bias :
    (∀ (prod : Bool) (fuelI : Nat) (st : St) (target source : JSVal)
        (st2 : St) (r : JSVal),
      heapClosed st.heap = true →
      valIn st.heap.length target = true →
      valIn st.heap.length source = true →
      (∃ a, target = JSVal.ref a) →
      (ownKeys st.heap source).Nodup →
      merge prod none (fuelI + 1) st target source = (st2, .ok r) →
      ∀ k ∈ ownKeys st.heap source,
        (¬(weCareAbout st.heap (getProp st.heap source k) = true ∧
            weCareAbout st.heap (getProp st.heap target k) = true) →
          getProp st2.heap r k = getProp st.heap source k) ∧
        (weCareAbout st.heap (getProp st.heap source k) = true →
          weCareAbout st.heap (getProp st.heap target k) = true →
          isArrayV st.heap (getProp st.heap source k) = true →
          getProp st2.heap r k = getProp st.heap source k) ∧
        (weCareAbout st.heap (getProp st.heap source k) = true →
          weCareAbout st.heap (getProp st.heap target k) = true →
          isArrayV st.heap (getProp st.heap source k) = false →
          getProp st.heap source k ≠ getProp st.heap target k →
          ∃ stA stB sub, merge prod none fuelI stA (getProp st.heap target k)
              (getProp st.heap source k) = (stB, .ok sub) ∧
            getProp st2.heap r k = sub)) ∧
    ((merge false none 2 ⟨heapC6, []⟩ (.ref 1) (.ref 3)).2 = .ok (.ref 4) ∧
      getProp (merge false none 2 ⟨heapC6, []⟩ (.ref 1) (.ref 3)).1.heap
        (.ref 4) "a" = .ref 2 ∧
      ownFields (merge false none 2 ⟨heapC6, []⟩ (.ref 1) (.ref 3)).1.heap
        (.ref 2) = [("0", JSVal.numV 2)] ∧
      isArrayV (merge false none 2 ⟨heapC6, []⟩ (.ref 1) (.ref 3)).1.heap
        (.ref 2) = true) := by
  constructor
  · intro prod fuelI st target source st2 r hc0 hvt hvs htr hnd hrun k hk
    obtain ⟨a, ha⟩ := htr
    subst ha
    unfold merge at hrun
    by_cases hns : isNullish source = true
    · cases source with
      | undefined => simp [ownKeys, ownFields] at hk
      | jsnull => simp [ownKeys, ownFields] at hk
      | boolV b => simp [isNullish] at hns
      | numV n => simp [isNullish] at hns
      | strV s => simp [isNullish] at hns
      | ref a2 => simp [isNullish] at hns
    · have hns2 : isNullish source = false := by
        revert hns; cases isNullish source <;> simp
      have hnt : isNullish (JSVal.ref a) = false := rfl
      rw [if_neg (by rw [hnt, hns2]; simp)] at hrun
      obtain ⟨-, -, -, -, hkk⟩ := mergeList_fold_spec hc0 hvs hvt
        (ownKeys st.heap source) st (.ref a) st2 r (HExt_refl _) hvt
        ⟨a, rfl⟩ (fun k2 _ => rfl) hnd hrun
      exact hkk k hk
  · exact ⟨by decide, by decide, by decide, by decide⟩

/-- Witness for C6's general conjunct at the array-replacement instance
`merge({a:[1,1]}, {a:[2]})`: the value stored at `"a"` is exactly the
source's `[2]` reference. -/
theorem merge_right_bias_witness :
    getProp (merge false none 2 ⟨heapC6, []⟩ (.ref 1) (.ref 3)).1.heap
      (.ref 4) "a" = getProp heapC6 (.ref 3) "a" :=
  ((merge_right_bias.1 false 1 ⟨heapC6, []⟩ (.ref 1) (.ref 3)
      (merge false none 2 ⟨heapC6, []⟩ (.ref 1) (.ref 3)).1 (.ref 4)
      (by decide) (by decide) (by decide) ⟨1, rfl⟩ (by decide)
      (by decide) "a" (by decide)).2.1 (by decide) (by decide) (by decide))
